import Mathlib

/-!
Verification of the plastron schedule-search core (src/plastron/astar.py,
src/plastron/section.py, src/plastron/course.py, src/plastron/api.py).

Shallow embedding conventions:
* Meeting times are minutes from midnight, as `ℤ` (Python `datetime` values at
  minute resolution; subtraction `.total_seconds() / 60` is exact on them).
* Python `float` arithmetic is idealised as `ℝ`; `float("inf")` is modelled by
  `Option`: `calculate_weight` returns `none` where the Python function returns
  `(float("inf"), 1)`, and the best-complete cost is a `WithTop ℝ` starting at
  `⊤` (Python `float("inf")`), so `cost > best + 60` is `best + 60 < ↑cost`,
  which is false when `best = ⊤`, exactly as for IEEE infinity.
* `heapq` frontier: `heappop` returns the minimum of the tuple order
  `(cost, counter, ...)`; counters are distinct, so the popped element is the
  unique `(cost, seq)`-lexicographic minimum and the comparison never reaches
  the later tuple components.  We model the heap by a list kept sorted by that
  order (`pushState` = ordered insert, pop = head), which produces the same
  sequence of popped states.
* `heapq.nsmallest(top, results)` returns the `top` smallest entries of
  `results` in ascending tuple order; with distinct result counters this is
  `take top` of the `(cost, result_counter)`-lexicographic sort.
* The search engine is stated generically in the cost type `K` and the weight
  function `w`; the program instantiates `K := ℝ`, `w := calculate_weight`,
  slack `60`.
-/

namespace Plastron

/-- A meeting of a section (section.py, class `Meeting`), after
`process_meetings` has expanded multi-day codes: one single-day code and
start/end times in minutes. -/
structure Meeting where
  day : String
  start_time : ℤ
  end_time : ℤ
deriving DecidableEq

/-- A section of a course (section.py, class `Section`): its scoped id and its
meetings.  Opaque presentation attributes are not modelled. -/
structure Section where
  section_id : String
  meetings : List Meeting
deriving DecidableEq

/-- A course (course.py, class `Course`): its id and candidate sections. -/
structure Course where
  course_id : String
  sections : List Section
deriving DecidableEq

/-- astar.py: `DAY_WEIGHT = 15`. -/
def DAY_WEIGHT : ℝ := 15

/-- astar.py, `adjusted_gap`: `gap + multiplier * exp(-((gap - midpoint)^2) /
(2 * range^2))`.  The Python defaults are 30, 50, 15; call sites pass them
explicitly here. -/
noncomputable def adjusted_gap (gap penalty_multiplier penalty_midpoint
    penalty_range : ℝ) : ℝ :=
  gap + penalty_multiplier *
    Real.exp (-((gap - penalty_midpoint) ^ 2) / (2 * penalty_range ^ 2))

/-- Statistics returned by `calculate_weight` (the `stats` dict). -/
structure Stats where
  total_gap : ℤ
  num_days_with_meetings : ℕ
deriving DecidableEq

/-- Lexicographic order on `(start_time, end_time)` pairs: Python tuple
comparison used by `day_meetings[day].sort()`. -/
def pairLE (a b : ℤ × ℤ) : Prop :=
  a.1 < b.1 ∨ (a.1 = b.1 ∧ a.2 ≤ b.2)

instance (a b : ℤ × ℤ) : Decidable (pairLE a b) := by
  unfold pairLE; infer_instance

instance : IsTotal (ℤ × ℤ) pairLE :=
  ⟨by
    intro a b
    unfold pairLE
    rcases lt_trichotomy a.1 b.1 with h | h | h
    · exact Or.inl (Or.inl h)
    · rcases le_total a.2 b.2 with h2 | h2
      · exact Or.inl (Or.inr ⟨h, h2⟩)
      · exact Or.inr (Or.inr ⟨h.symm, h2⟩)
    · exact Or.inr (Or.inl h)⟩

instance : IsTrans (ℤ × ℤ) pairLE :=
  ⟨by
    intro a b c hab hbc
    unfold pairLE at *
    rcases hab with h | ⟨h, h2⟩
    · rcases hbc with h' | ⟨h', h2'⟩
      · exact Or.inl (h.trans h')
      · exact Or.inl (h'.symm ▸ h)
    · rcases hbc with h' | ⟨h', h2'⟩
      · exact Or.inl (h ▸ h')
      · exact Or.inr ⟨h.trans h', h2.trans h2'⟩⟩

/-- The inner pair loop of `calculate_weight` on one day's sorted meeting
list: checks each chronologically adjacent pair, returns `none` on overlap
(the Python `return (float("inf"), 1)`), otherwise accumulates the adjusted
gap cost and the raw gap minutes. -/
noncomputable def dayScan (gap_exponent : ℝ) : List (ℤ × ℤ) → Option (ℝ × ℤ)
  | [] => some (0, 0)
  | [_] => some (0, 0)
  | (_s1, e1) :: (s2, e2) :: rest =>
    if e1 > s2 then none
    else
      match dayScan gap_exponent ((s2, e2) :: rest) with
      | none => none
      | some (c, g) =>
        let gap : ℤ := s2 - e1
        if 0 < gap then
          some (adjusted_gap (gap : ℝ) 30 50 15 ^ gap_exponent + c, gap + g)
        else some (c, g)

/-- One `day_meetings[meeting.days].append((start, end))` step of
`calculate_weight`: insertion-ordered dict of per-day pair lists. -/
def addPair : List (String × List (ℤ × ℤ)) → String → ℤ × ℤ →
    List (String × List (ℤ × ℤ))
  | [], d, p => [(d, [p])]
  | (k, ps) :: rest, d, p =>
    if k = d then (k, ps ++ [p]) :: rest
    else (k, ps) :: addPair rest d p

/-- The meetings of the path followed by the candidate section's meetings, in
the order `calculate_weight` inserts them into `day_meetings`. -/
def allMeetings (path : List Section) (new_section : Section) : List Meeting :=
  (path.map Section.meetings).flatten ++ new_section.meetings

/-- The `day_meetings` dict of `calculate_weight` as an insertion-ordered
association list. -/
def day_meetings (path : List Section) (new_section : Section) :
    List (String × List (ℤ × ℤ)) :=
  (allMeetings path new_section).foldl
    (fun a m => addPair a m.day (m.start_time, m.end_time)) []

/-- The per-day loop of `calculate_weight`: sorts each day, counts days with
meetings, and runs `dayScan`; a conflict on any day yields `none`. -/
noncomputable def goDays (gap_exponent : ℝ) :
    List (String × List (ℤ × ℤ)) → Option (ℝ × ℤ × ℕ)
  | [] => some (0, 0, 0)
  | (_, ms) :: rest =>
    match dayScan gap_exponent (List.insertionSort pairLE ms) with
    | none => none
    | some (c, g) =>
      match goDays gap_exponent rest with
      | none => none
      | some (c2, g2, n2) =>
        some (c + c2, g + g2, (if 0 < ms.length then 1 else 0) + n2)

/-- astar.py, `calculate_weight`: total weight of `path` plus `new_section`
and the stats, or `none` for the infeasible `(float("inf"), 1)` case. -/
noncomputable def calculate_weight (path : List Section)
    (new_section : Section) (gap_exponent : ℝ) : Option (ℝ × Stats) :=
  match goDays gap_exponent (day_meetings path new_section) with
  | none => none
  | some (c, g, n) => some (c + (n : ℝ) * DAY_WEIGHT, ⟨g, n⟩)

/-- First-match lookup in the `day_meetings` association list. -/
def lookupDay (d : String) : List (String × List (ℤ × ℤ)) → List (ℤ × ℤ)
  | [] => []
  | (k, ps) :: rest => if k = d then ps else lookupDay d rest

/-- The `(start, end)` pairs of the meetings of `ms` held on day `d`, in
order. -/
def meetingsOnDay (ms : List Meeting) (d : String) : List (ℤ × ℤ) :=
  (ms.filter (fun m => m.day = d)).map (fun m => (m.start_time, m.end_time))

/-- Two intervals do not overlap (touching boundaries allowed). -/
def NoOverlapPair (a b : ℤ × ℤ) : Prop := a.2 ≤ b.1 ∨ b.2 ≤ a.1

/-- A search state: the heap tuple
`(cost, counter, path, course_index, stats)` of `optimize_schedule`. -/
structure SearchState (K : Type) where
  cost : K
  seq : ℕ
  path : List Section
  course_index : ℕ
  stats : Stats

/-- A complete schedule as returned by `optimize_schedule` (the result
dict). -/
structure Schedule (K : Type) where
  cost : K
  total_gap_minutes : ℤ
  num_days_with_meetings : ℕ
  sections : List Section

/-- The mutable state of the `optimize_schedule` loop. -/
structure LoopState (K : Type) where
  counter : ℕ
  result_counter : ℕ
  queue : List (SearchState K)
  results : List (K × ℕ × Schedule K)
  visited : List (ℕ × List String)
  best_complete_cost : WithTop K

variable {K : Type}

/-- Strict heap order on states: Python tuple comparison `(cost, counter)`
(counters are distinct, so later components never compared). -/
def stateLT [LinearOrder K] (a b : SearchState K) : Prop :=
  a.cost < b.cost ∨ (a.cost = b.cost ∧ a.seq < b.seq)

instance [LinearOrder K] (a b : SearchState K) : Decidable (stateLT a b) := by
  unfold stateLT; infer_instance

/-- `heapq.heappush`: insert a state into the (sorted-list model of the)
frontier. -/
def pushState [LinearOrder K] (s : SearchState K) :
    List (SearchState K) → List (SearchState K)
  | [] => [s]
  | x :: xs => if stateLT s x then s :: x :: xs else x :: pushState s xs

/-- `state_id = (course_idx + 1, tuple(s.section_id for s in new_path))`. -/
def stateId (course_index : ℕ) (path : List Section) : ℕ × List String :=
  (course_index, path.map Section.section_id)

/-- One candidate section inside the `for section in
courses[course_idx].sections` loop: compute the weight, prune conflicts and
branches worse than `best_complete_cost + slack`, consume a counter for each
surviving child, and push it unless its `state_id` was visited.  The
accumulator is `(counter, queue, visited)`. -/
def expandChild [LinearOrder K] [Add K] (slack : K)
    (w : List Section → Section → Option (K × Stats))
    (path : List Section) (course_index : ℕ) (best : WithTop K)
    (acc : ℕ × List (SearchState K) × List (ℕ × List String))
    (s : Section) : ℕ × List (SearchState K) × List (ℕ × List String) :=
  match w path s with
  | none => acc
  | some (c, st) =>
    if best + (slack : WithTop K) < (c : WithTop K) then acc
    else
      let newPath := path ++ [s]
      let id := stateId (course_index + 1) newPath
      if id ∈ acc.2.2 then (acc.1 + 1, acc.2.1, acc.2.2)
      else
        (acc.1 + 1,
         pushState ⟨c, acc.1, newPath, course_index + 1, st⟩ acc.2.1,
         acc.2.2 ++ [id])

/-- One iteration of the `while queue` loop of `optimize_schedule`: pop the
minimum state; if complete, record it and update the best complete cost;
otherwise expand the next course's sections.  An empty queue is left
unchanged. -/
def stepLoop [LinearOrder K] [Add K] (slack : K)
    (w : List Section → Section → Option (K × Stats))
    (courses : List Course) (ls : LoopState K) : LoopState K :=
  match ls.queue with
  | [] => ls
  | st :: rest =>
    if st.course_index = courses.length then
      { ls with
        queue := rest
        best_complete_cost := min ls.best_complete_cost (st.cost : WithTop K)
        results := ls.results ++
          [(st.cost, ls.result_counter,
            ⟨st.cost, st.stats.total_gap, st.stats.num_days_with_meetings,
             st.path⟩)]
        result_counter := ls.result_counter + 1 }
    else
      let secs := (courses.getD st.course_index ⟨"", []⟩).sections
      let acc := secs.foldl
        (expandChild slack w st.path st.course_index ls.best_complete_cost)
        (ls.counter, rest, ls.visited)
      { ls with counter := acc.1, queue := acc.2.1, visited := acc.2.2 }

/-- Iterate `stepLoop` a given number of times. -/
def iterateLoop [LinearOrder K] [Add K] (slack : K)
    (w : List Section → Section → Option (K × Stats))
    (courses : List Course) : ℕ → LoopState K → LoopState K
  | 0, ls => ls
  | Nat.succ n, ls => iterateLoop slack w courses n (stepLoop slack w courses ls)

/-- The initial loop state: `start_state = (0, 0, [], 0, {})` on the queue
(the empty stats dict is modelled by `⟨0, 0⟩`; it is only read when a state
completes, which the start state never does on a nonempty course list), the
counter already advanced past the start state. -/
def initLoop (K : Type) [Zero K] : LoopState K :=
  { counter := 1
    result_counter := 0
    queue := [⟨0, 0, [], 0, ⟨0, 0⟩⟩]
    results := []
    visited := []
    best_complete_cost := ⊤ }

/-- Product of `(sections count + 1)` over the courses from `idx` on: a
strictly decreasing potential for the frontier (see `potential`). -/
def branchPotential (courses : List Course) (idx : ℕ) : ℕ :=
  ((courses.drop idx).map (fun c => c.sections.length + 1)).prod

/-- Total potential of a frontier: expanding a state at `course_index i`
removes `branchPotential courses i` and adds at most
`sections i * branchPotential courses (i+1)`, a strict decrease. -/
def potential (courses : List Course) (q : List (SearchState K)) : ℕ :=
  (q.map (fun s => branchPotential courses s.course_index)).sum

/-- Fuel sufficient to drain the frontier (the initial potential). -/
def searchFuel (courses : List Course) : ℕ :=
  branchPotential courses 0

/-- Order used by `heapq.nsmallest(top, results)`: tuple comparison
`(cost, result_counter)`; result counters are distinct so later components
are never compared. -/
def resultLE [LinearOrder K] (a b : K × ℕ × Schedule K) : Prop :=
  a.1 < b.1 ∨ (a.1 = b.1 ∧ a.2.1 ≤ b.2.1)

instance [LinearOrder K] (a b : K × ℕ × Schedule K) :
    Decidable (resultLE a b) := by
  unfold resultLE; infer_instance

instance [LinearOrder K] : IsTotal (K × ℕ × Schedule K) resultLE :=
  ⟨by
    intro a b
    unfold resultLE
    rcases lt_trichotomy a.1 b.1 with h | h | h
    · exact Or.inl (Or.inl h)
    · rcases le_total a.2.1 b.2.1 with h2 | h2
      · exact Or.inl (Or.inr ⟨h, h2⟩)
      · exact Or.inr (Or.inr ⟨h.symm, h2⟩)
    · exact Or.inr (Or.inl h)⟩

instance [LinearOrder K] : IsTrans (K × ℕ × Schedule K) resultLE :=
  ⟨by
    intro a b c hab hbc
    unfold resultLE at *
    rcases hab with h | ⟨h, h2⟩
    · rcases hbc with h' | ⟨h', h2'⟩
      · exact Or.inl (h.trans h')
      · exact Or.inl (h'.symm ▸ h)
    · rcases hbc with h' | ⟨h', h2'⟩
      · exact Or.inl (h ▸ h')
      · exact Or.inr ⟨h.trans h', h2.trans h2'⟩⟩

/-- astar.py, `optimize_schedule`, generic in the cost type and weight
function; the program instantiates `K := ℝ`, `w := calculate_weight` and
`slack := 60`.  Returns `[]` immediately on an empty course list, otherwise
runs the loop to completion (the fuel bound is proved sufficient below) and
returns the `top` smallest recorded results. -/
def optimize_core [LinearOrder K] [Add K] [Zero K] (slack : K)
    (w : List Section → Section → Option (K × Stats))
    (courses : List Course) (top : ℕ) : List (Schedule K) :=
  if courses.length = 0 then []
  else
    ((List.insertionSort resultLE
        (iterateLoop slack w courses (searchFuel courses)
          (initLoop K)).results).take top).map (fun r => r.2.2)

/-- astar.py, `optimize_schedule(courses, top=1, gap_exponent=0.75)`. -/
noncomputable def optimize_schedule (courses : List Course) (top : ℕ)
    (gap_exponent : ℝ) : List (Schedule ℝ) :=
  optimize_core (60 : ℝ) (fun p s => calculate_weight p s gap_exponent)
    courses top

/-- `optimize_schedule` with its Python default arguments
(`top=1`, `gap_exponent=0.75`). -/
noncomputable def optimize_schedule_defaults (courses : List Course) :
    List (Schedule ℝ) :=
  optimize_schedule courses 1 (0.75 : ℝ)

/-- The list of results recorded by the completed search (empty course lists
never start the loop). -/
def recordedResults [LinearOrder K] [Add K] [Zero K] (slack : K)
    (w : List Section → Section → Option (K × Stats))
    (courses : List Course) : List (K × ℕ × Schedule K) :=
  if courses.length = 0 then []
  else
    (iterateLoop slack w courses (searchFuel courses) (initLoop K)).results

/-- `min(k, number_of_complete_states)`: how many complete states the search
records. -/
def numCompleteStates [LinearOrder K] [Add K] [Zero K] (slack : K)
    (w : List Section → Section → Option (K × Stats))
    (courses : List Course) : ℕ :=
  (recordedResults slack w courses).length

/-- Structural invariant of a search state: the path assigns one section per
course, in course order, up to `course_index` (claim C10's frontier
invariant). -/
def StateOK (courses : List Course) (s : SearchState K) : Prop :=
  s.path.length = s.course_index ∧ s.course_index ≤ courses.length ∧
  ∀ i, i < s.course_index → ∃ sec c, s.path[i]? = some sec ∧
    courses[i]? = some c ∧ sec ∈ c.sections

/-- Cost/stats invariant of a search state: any state past the start carries
exactly the weight of its path as computed when its last section was
appended. -/
def StateW (w : List Section → Section → Option (K × Stats))
    (s : SearchState K) : Prop :=
  1 ≤ s.course_index → ∃ pre last, s.path = pre ++ [last] ∧
    w pre last = some (s.cost, s.stats)

/-- Invariant of a recorded result entry `(cost, result_counter, schedule)`. -/
def EntryOK (courses : List Course)
    (w : List Section → Section → Option (K × Stats))
    (e : K × ℕ × Schedule K) : Prop :=
  e.2.2.cost = e.1 ∧ e.2.2.sections.length = courses.length ∧
  (∀ i, i < courses.length → ∃ sec c, e.2.2.sections[i]? = some sec ∧
    courses[i]? = some c ∧ sec ∈ c.sections) ∧
  (1 ≤ courses.length → ∃ pre last, e.2.2.sections = pre ++ [last] ∧
    w pre last = some (e.1,
      ⟨e.2.2.total_gap_minutes, e.2.2.num_days_with_meetings⟩))

/-- The main loop invariant. -/
def LoopInv (courses : List Course)
    (w : List Section → Section → Option (K × Stats))
    (ls : LoopState K) : Prop :=
  (∀ s ∈ ls.queue, StateOK courses s ∧ StateW w s) ∧
  ∀ e ∈ ls.results, EntryOK courses w e

/-- Result counters are recorded in order `0, 1, 2, ...`. -/
def CntInv (ls : LoopState K) : Prop :=
  ls.results.map (fun e => e.2.1) = List.range ls.result_counter

/-- The weight function `optimize_schedule` passes to the generic engine. -/
noncomputable def wReal (gap_exponent : ℝ) :
    List Section → Section → Option (ℝ × Stats) :=
  fun p s => calculate_weight p s gap_exponent

/-- Cost contribution of a single positive gap of `g` minutes, at the default
parameters: `adjusted_gap(g)^0.75`. -/
noncomputable def gapContribution (g : ℝ) : ℝ :=
  adjusted_gap g 30 50 15 ^ (0.75 : ℝ)

/-- Total weight of a one-day schedule with two meetings separated by a
positive gap of `g` minutes: one gap contribution plus one day weight. -/
noncomputable def costPair (g : ℝ) : ℝ := gapContribution g + 15

/-- `MOCK_SECTION_1` of tests/test_astar.py: Monday 10:00 to 10:50. -/
def mock_section_1 : Section := ⟨"MockCourse1-10AM", [⟨"M", 600, 650⟩]⟩

/-- `MOCK_SECTION_2`: Monday 2:00pm to 2:50pm. -/
def mock_section_2 : Section := ⟨"MockCourse1-2PM", [⟨"M", 840, 890⟩]⟩

/-- `MOCK_SECTION_3`: Monday 11:00 to 11:50. -/
def mock_section_3 : Section := ⟨"MockCourse2-11AM", [⟨"M", 660, 710⟩]⟩

/-- `MOCK_SECTION_4`: Monday 4:00pm to 4:50pm. -/
def mock_section_4 : Section := ⟨"MockCourse2-4PM", [⟨"M", 960, 1010⟩]⟩

/-- Course 1 of the concrete scenario, with the 10:00 and 2:00 sections. -/
def mock_course_1 : Course := ⟨"MOCKCOURSE1", [mock_section_1, mock_section_2]⟩

/-- Course 2 of the concrete scenario, with the 11:00 and 4:00 sections. -/
def mock_course_2 : Course := ⟨"MOCKCOURSE2", [mock_section_3, mock_section_4]⟩

/-- The two-course input of the concrete scenario. -/
def mockCourses : List Course := [mock_course_1, mock_course_2]

/-- Spec-side gap formula (§4.1 of the spec):
`(gap + multiplier * exp(-(gap - midpoint)^2 / (2 * range^2)))^exponent` with
the default multiplier 30, midpoint 50, range 15 and exponent 0.75. -/
noncomputable def specGapContribution (g : ℝ) : ℝ :=
  (g + 30 * Real.exp (-((g - 50) ^ 2) / (2 * 15 ^ 2))) ^ (0.75 : ℝ)

/-- Chronologically adjacent pairs of a list of intervals. -/
def adjacentPairs (l : List (ℤ × ℤ)) : List ((ℤ × ℤ) × ℤ × ℤ) :=
  l.zip l.tail

/-- Spec-side cost of one day: the sum of the gap contributions of the
chronologically adjacent pairs of the day's sorted meetings with positive
gap. -/
noncomputable def specDayCost (ms : List (ℤ × ℤ)) : ℝ :=
  ((adjacentPairs (List.insertionSort pairLE ms)).map (fun p =>
    if 0 < p.2.1 - p.1.2 then specGapContribution ((p.2.1 - p.1.2 : ℤ) : ℝ)
    else 0)).sum

/-- Spec-side raw gap minutes of one day. -/
def specDayGap (ms : List (ℤ × ℤ)) : ℤ :=
  ((adjacentPairs (List.insertionSort pairLE ms)).map (fun p =>
    if 0 < p.2.1 - p.1.2 then p.2.1 - p.1.2 else 0)).sum

/-- The distinct days on which a meeting list meets. -/
def distinctDays (ms : List Meeting) : List String := (ms.map Meeting.day).dedup

/-- Spec-side total cost of a path plus a candidate section: per-day gap
contributions summed over the distinct days, plus the day weight 15 times
the number of distinct days with a meeting. -/
noncomputable def specCost (path : List Section) (s : Section) : ℝ :=
  ((distinctDays (allMeetings path s)).map (fun d =>
    specDayCost (meetingsOnDay (allMeetings path s) d))).sum +
    15 * (distinctDays (allMeetings path s)).length

/-- Spec-side total raw gap minutes. -/
def specTotalGap (path : List Section) (s : Section) : ℤ :=
  ((distinctDays (allMeetings path s)).map (fun d =>
    specDayGap (meetingsOnDay (allMeetings path s) d))).sum

/-- The feasibility hypothesis of the cost-model formula: no two same-day
meetings of the combined path overlap. -/
def FeasibleMeetings (ms : List Meeting) : Prop :=
  List.Pairwise (fun m m2 : Meeting => m.day = m2.day →
    NoOverlapPair (m.start_time, m.end_time) (m2.start_time, m2.end_time)) ms

instance (a b : ℤ × ℤ) : Decidable (NoOverlapPair a b) := by
  unfold NoOverlapPair; infer_instance

instance (ms : List Meeting) : Decidable (FeasibleMeetings ms) := by
  unfold FeasibleMeetings
  exact List.instDecidablePairwise ms

/-- Fixed section for the C8 counterexample: Monday 8:00 to 8:50. -/
def c8_path_section : Section := ⟨"C8-Path", [⟨"M", 480, 530⟩]⟩

/-- Candidate A for the C8 counterexample: Monday 9:49 to 10:39, leaving a
59 minute gap after the fixed section. -/
def c8_section_A : Section := ⟨"C8-A", [⟨"M", 589, 639⟩]⟩

/-- Candidate B for the C8 counterexample: Monday 9:55 to 10:45, leaving a
65 minute gap after the fixed section. -/
def c8_section_B : Section := ⟨"C8-B", [⟨"M", 595, 645⟩]⟩

/-- api.py, `ScheduleRequest`: the `top` field is declared
`Optional[int] = Field(1, json_schema_extra={"example": 1})`, with no `gt` or
`ge` bound, so pydantic validation accepts every integer value of `top`. -/
def scheduleRequestTopValid (top : ℤ) : Bool :=
  true

/-- Outcome of an API endpoint call: an HTTP 422 validation error or a
result list. -/
inductive ApiResponse where
  | validationError : String → ApiResponse
  | ok : List (Schedule ℝ) → ApiResponse

/-- api.py, `generate_schedules` endpoint, after course hydration: the only
boundary check is the 10-course limit; `top` is passed through to
`ScheduleGenerator.generate_schedules` and on to `optimize_schedule`
unchecked.  `heapq.nsmallest(top, results)` selects nothing when
`top ≤ 0`, which the ℕ-indexed `take` models via `Int.toNat`. -/
noncomputable def generate_schedules_endpoint (hydrated : List Course)
    (courseIds : List String) (top : ℤ) : ApiResponse :=
  if 10 < courseIds.length then
    ApiResponse.validationError "Maximum of 10 courses allowed."
  else ApiResponse.ok (optimize_schedule hydrated top.toNat (0.75 : ℝ))

/-- Total weight of a (nonempty) combination of sections: the weight
`calculate_weight` reports when its last section is appended to the others.
Since `calculate_weight` rebuilds the whole per-day meeting table from the
combined path on every call, this is the weight of the combination itself. -/
noncomputable def comboWeight (p : List Section) (gap_exponent : ℝ) :
    Option (ℝ × Stats) :=
  match p.getLast? with
  | none => none
  | some last => calculate_weight p.dropLast last gap_exponent

/-- Total cost of a combination, `⊤` when empty or conflicting. -/
noncomputable def comboCost (p : List Section) (gap_exponent : ℝ) :
    WithTop ℝ :=
  match comboWeight p gap_exponent with
  | none => ⊤
  | some x => (x.1 : WithTop ℝ)

/-- All combinations of one section per course, in course order. -/
def allCombos : List Course → List (List Section)
  | [] => [[]]
  | c :: rest =>
    (c.sections.map (fun s => (allCombos rest).map (fun p => s :: p))).flatten

/-- The minimum total cost over all combinations (`⊤` when every combination
conflicts or no combination exists). -/
noncomputable def OPT (courses : List Course) (gap_exponent : ℝ) :
    WithTop ℝ :=
  ((allCombos courses).map (fun p => comboCost p gap_exponent)).foldr min ⊤

/-- `p` picks exactly one section per course, in course order. -/
def isCombo (courses : List Course) (p : List Section) : Prop :=
  p.length = courses.length ∧
  ∀ i, i < courses.length → ∃ sec c, p[i]? = some sec ∧
    courses[i]? = some c ∧ sec ∈ c.sections

/-- Prefix-shaped membership: position `i` of `p` is a candidate section of
course `i`. -/
def pathOK (courses : List Course) (p : List Section) : Prop :=
  ∀ i, i < p.length → ∃ sec c, p[i]? = some sec ∧
    courses[i]? = some c ∧ sec ∈ c.sections

/-- The completeness invariant for a fixed target combination `π`: either a
schedule with sections `π` has been recorded, or some prefix `π.take m` is on
the frontier and no strictly longer prefix of `π` has ever been pushed
(its state id is unvisited). -/
def C2Inv (courses : List Course) (π : List Section) (ls : LoopState ℝ) :
    Prop :=
  (∃ e ∈ ls.results, e.2.2.sections = π) ∨
  (∃ m, m ≤ courses.length ∧
    (∃ st ∈ ls.queue, st.path = π.take m ∧ st.course_index = m) ∧
    ∀ j, m < j → j ≤ courses.length →
      stateId j (π.take j) ∉ ls.visited)

/-- Every queue state past the start has its `state_id` in the visited set:
`optimize_schedule` adds a child's id to `visited` exactly when it pushes the
child (the start state is pushed before the loop and never marked). -/
def QueueVisited (ls : LoopState K) : Prop :=
  ∀ st ∈ ls.queue, 1 ≤ st.course_index →
    stateId st.course_index st.path ∈ ls.visited

/-- First course of the pruning counterexample, candidate 1: Monday and
Thursday 8:00 to 8:50. -/
def bb_a1 : Section := ⟨"BB-A1", [⟨"M", 480, 530⟩, ⟨"Th", 480, 530⟩]⟩

/-- First course of the pruning counterexample, candidate 2: Monday 8:00 to
8:50 and Monday 19:15 to 20:05 (a 625 minute gap). -/
def bb_a2 : Section := ⟨"BB-A2", [⟨"M", 480, 530⟩, ⟨"M", 1155, 1205⟩]⟩

/-- Second course of the pruning counterexample: Tuesday 8:00 to 8:50. -/
def bb_b : Section := ⟨"BB-B", [⟨"Tu", 480, 530⟩]⟩

/-- Third course of the pruning counterexample: Monday 8:50 to 19:15, which
exactly fills the gap of `bb_a2`. -/
def bb_c : Section := ⟨"BB-C", [⟨"M", 530, 1155⟩]⟩

/-- The three-course pruning counterexample input. -/
def bbCourses : List Course :=
  [⟨"BBA", [bb_a1, bb_a2]⟩, ⟨"BBB", [bb_b]⟩, ⟨"BBC", [bb_c]⟩]

/-- Search state for `[bb_a1]`: two days, no gaps, cost 30. -/
noncomputable def bbT1 : SearchState ℝ := ⟨30, 1, [bb_a1], 1, ⟨0, 2⟩⟩

/-- Search state for `[bb_a2]`: one day with a 625 minute gap. -/
noncomputable def bbT2 : SearchState ℝ :=
  ⟨costPair 625, 2, [bb_a2], 1, ⟨625, 1⟩⟩

/-- Search state for `[bb_a1, bb_b]`: three days, no gaps, cost 45. -/
noncomputable def bbT3 : SearchState ℝ := ⟨45, 3, [bb_a1, bb_b], 2, ⟨0, 3⟩⟩

/-- Search state for the complete `[bb_a1, bb_b, bb_c]`: cost 45. -/
noncomputable def bbT4 : SearchState ℝ :=
  ⟨45, 4, [bb_a1, bb_b, bb_c], 3, ⟨0, 3⟩⟩

/-- The single schedule returned on the pruning counterexample input. -/
noncomputable def bbR : Schedule ℝ := ⟨45, 0, 3, [bb_a1, bb_b, bb_c]⟩

/-- Visited ids of the counterexample run, after each expansion step. -/
def bbIds1 : List (ℕ × List String) := [(1, ["BB-A1"]), (1, ["BB-A2"])]

/-- Visited ids after the second expansion. -/
def bbIds2 : List (ℕ × List String) := bbIds1 ++ [(2, ["BB-A1", "BB-B"])]

/-- Visited ids after the third expansion. -/
def bbIds3 : List (ℕ × List String) :=
  bbIds2 ++ [(3, ["BB-A1", "BB-B", "BB-C"])]

/-- Counterexample run, loop state after iteration 1. -/
noncomputable def bbLS1 : LoopState ℝ := ⟨3, 0, [bbT1, bbT2], [], bbIds1, ⊤⟩

/-- Counterexample run, loop state after iteration 2. -/
noncomputable def bbLS2 : LoopState ℝ := ⟨4, 0, [bbT3, bbT2], [], bbIds2, ⊤⟩

/-- Counterexample run, loop state after iteration 3. -/
noncomputable def bbLS3 : LoopState ℝ := ⟨5, 0, [bbT4, bbT2], [], bbIds3, ⊤⟩

/-- Counterexample run, loop state after iteration 4: `[bb_a1, bb_b, bb_c]`
is recorded at cost 45. -/
noncomputable def bbLS4 : LoopState ℝ :=
  ⟨5, 1, [bbT2], [(45, 0, bbR)], bbIds3, ((45 : ℝ) : WithTop ℝ)⟩

/-- Counterexample run, final loop state: expanding `[bb_a2]` prunes its
only child (cost above best + 60), so the frontier drains with a single
recorded schedule. -/
noncomputable def bbLS5 : LoopState ℝ :=
  ⟨5, 1, [], [(45, 0, bbR)], bbIds3, ((45 : ℝ) : WithTop ℝ)⟩

/-- A course whose candidate list is empty (the C6 edge case). -/
def emptySecCourse : Course := ⟨"EMPTY", []⟩

/-- A one-section one-meeting course used to exercise the engine. -/
def single_section : Section := ⟨"SoloCourse-0101", [⟨"M", 600, 650⟩]⟩

/-- The course holding `single_section`. -/
def single_course : Course := ⟨"SOLO", [single_section]⟩

/-- The one-course input. -/
def singleCourses : List Course := [single_course]

/-- The single complete schedule of the one-course input: cost 15 (one day,
no gaps). -/
noncomputable def singleR : Schedule ℝ := ⟨15, 0, 1, [single_section]⟩

/-- The only expanded search state of the one-course input. -/
noncomputable def singleS1 : SearchState ℝ :=
  ⟨15, 1, [single_section], 1, ⟨0, 1⟩⟩

/-- Visited ids of the one-course run. -/
def singleIds : List (ℕ × List String) := [(1, ["SoloCourse-0101"])]

/-- Loop state of the one-course run after one iteration. -/
noncomputable def singleLS1 : LoopState ℝ :=
  ⟨2, 0, [singleS1], [], singleIds, ⊤⟩

/-- Final loop state of the one-course run. -/
noncomputable def singleLS2 : LoopState ℝ :=
  ⟨2, 1, [], [(15, 0, singleR)], singleIds, ((15 : ℝ) : WithTop ℝ)⟩

/-- Search state for the path `[10:00]` in the concrete scenario. -/
noncomputable def mockS1 : SearchState ℝ := ⟨15, 1, [mock_section_1], 1, ⟨0, 1⟩⟩

/-- Search state for the path `[2:00]`. -/
noncomputable def mockS2 : SearchState ℝ := ⟨15, 2, [mock_section_2], 1, ⟨0, 1⟩⟩

/-- Search state for the complete path `[10:00, 11:00]` (10 minute gap). -/
noncomputable def mockS3 : SearchState ℝ :=
  ⟨costPair 10, 3, [mock_section_1, mock_section_3], 2, ⟨10, 1⟩⟩

/-- Search state for the complete path `[10:00, 4:00]` (310 minute gap). -/
noncomputable def mockS4 : SearchState ℝ :=
  ⟨costPair 310, 4, [mock_section_1, mock_section_4], 2, ⟨310, 1⟩⟩

/-- Search state for the complete path `[2:00, 11:00]` (130 minute gap). -/
noncomputable def mockS5 : SearchState ℝ :=
  ⟨costPair 130, 5, [mock_section_2, mock_section_3], 2, ⟨130, 1⟩⟩

/-- Search state for the complete path `[2:00, 4:00]` (70 minute gap). -/
noncomputable def mockS6 : SearchState ℝ :=
  ⟨costPair 70, 6, [mock_section_2, mock_section_4], 2, ⟨70, 1⟩⟩

/-- Returned schedule `{10:00, 11:00}`: total gap 10 minutes. -/
noncomputable def R1011 : Schedule ℝ :=
  ⟨costPair 10, 10, 1, [mock_section_1, mock_section_3]⟩

/-- Returned schedule `{2:00, 4:00}`: total gap 70 minutes. -/
noncomputable def R1416 : Schedule ℝ :=
  ⟨costPair 70, 70, 1, [mock_section_2, mock_section_4]⟩

/-- Recorded schedule `{2:00, 11:00}`: total gap 130 minutes. -/
noncomputable def R1411 : Schedule ℝ :=
  ⟨costPair 130, 130, 1, [mock_section_2, mock_section_3]⟩

/-- Recorded schedule `{10:00, 4:00}`: total gap 310 minutes. -/
noncomputable def R1016 : Schedule ℝ :=
  ⟨costPair 310, 310, 1, [mock_section_1, mock_section_4]⟩

/-- Visited ids after the first expansion. -/
def mockIds1 : List (ℕ × List String) :=
  [(1, ["MockCourse1-10AM"]), (1, ["MockCourse1-2PM"])]

/-- Visited ids after the second expansion. -/
def mockIds2 : List (ℕ × List String) :=
  mockIds1 ++ [(2, ["MockCourse1-10AM", "MockCourse2-11AM"]),
    (2, ["MockCourse1-10AM", "MockCourse2-4PM"])]

/-- Visited ids after the third expansion. -/
def mockIds3 : List (ℕ × List String) :=
  mockIds2 ++ [(2, ["MockCourse1-2PM", "MockCourse2-11AM"]),
    (2, ["MockCourse1-2PM", "MockCourse2-4PM"])]

/-- Loop state after iteration 1 (start state expanded). -/
noncomputable def mockLS1 : LoopState ℝ :=
  ⟨3, 0, [mockS1, mockS2], [], mockIds1, ⊤⟩

/-- Loop state after iteration 2 (`[10:00]` expanded). -/
noncomputable def mockLS2 : LoopState ℝ :=
  ⟨5, 0, [mockS2, mockS3, mockS4], [], mockIds2, ⊤⟩

/-- Loop state after iteration 3 (`[2:00]` expanded). -/
noncomputable def mockLS3 : LoopState ℝ :=
  ⟨7, 0, [mockS3, mockS6, mockS5, mockS4], [], mockIds3, ⊤⟩

/-- Loop state after iteration 4 (first completion, cost `costPair 10`). -/
noncomputable def mockLS4 : LoopState ℝ :=
  ⟨7, 1, [mockS6, mockS5, mockS4], [(costPair 10, 0, R1011)], mockIds3,
    ((costPair 10 : ℝ) : WithTop ℝ)⟩

/-- Loop state after iteration 5. -/
noncomputable def mockLS5 : LoopState ℝ :=
  ⟨7, 2, [mockS5, mockS4],
    [(costPair 10, 0, R1011), (costPair 70, 1, R1416)], mockIds3,
    ((costPair 10 : ℝ) : WithTop ℝ)⟩

/-- Loop state after iteration 6. -/
noncomputable def mockLS6 : LoopState ℝ :=
  ⟨7, 3, [mockS4],
    [(costPair 10, 0, R1011), (costPair 70, 1, R1416),
      (costPair 130, 2, R1411)], mockIds3,
    ((costPair 10 : ℝ) : WithTop ℝ)⟩

/-- Loop state after iteration 7: the frontier is empty and all four complete
schedules are recorded in completion order. -/
noncomputable def mockLS7 : LoopState ℝ :=
  ⟨7, 4, [],
    [(costPair 10, 0, R1011), (costPair 70, 1, R1416),
      (costPair 130, 2, R1411), (costPair 310, 3, R1016)], mockIds3,
    ((costPair 10 : ℝ) : WithTop ℝ)⟩

section EngineLemmas

variable [LinearOrder K] [Add K] (slack : K)
variable (w : List Section → Section → Option (K × Stats))
variable (courses : List Course)

theorem optimize_core_eq [Zero K] (top : ℕ) :
    optimize_core slack w courses top =
      ((List.insertionSort resultLE (recordedResults slack w courses)).take
        top).map (fun r => r.2.2) := by
  unfold optimize_core recordedResults
  by_cases h : courses.length = 0 <;> simp [h]

theorem stepLoop_nil {ls : LoopState K} (h : ls.queue = []) :
    stepLoop slack w courses ls = ls := by
  unfold stepLoop
  rw [h]

theorem stepLoop_complete {ls : LoopState K} {st rest}
    (h : ls.queue = st :: rest) (hc : st.course_index = courses.length) :
    stepLoop slack w courses ls =
      { ls with
        queue := rest
        best_complete_cost := min ls.best_complete_cost (st.cost : WithTop K)
        results := ls.results ++
          [(st.cost, ls.result_counter,
            ⟨st.cost, st.stats.total_gap, st.stats.num_days_with_meetings,
             st.path⟩)]
        result_counter := ls.result_counter + 1 } := by
  unfold stepLoop
  rw [h]
  simp [hc]

theorem stepLoop_expand {ls : LoopState K} {st rest}
    (h : ls.queue = st :: rest) (hc : ¬ st.course_index = courses.length) :
    stepLoop slack w courses ls =
      { ls with
        counter := ((courses.getD st.course_index ⟨"", []⟩).sections.foldl
          (expandChild slack w st.path st.course_index ls.best_complete_cost)
          (ls.counter, rest, ls.visited)).1
        queue := ((courses.getD st.course_index ⟨"", []⟩).sections.foldl
          (expandChild slack w st.path st.course_index ls.best_complete_cost)
          (ls.counter, rest, ls.visited)).2.1
        visited := ((courses.getD st.course_index ⟨"", []⟩).sections.foldl
          (expandChild slack w st.path st.course_index ls.best_complete_cost)
          (ls.counter, rest, ls.visited)).2.2 } := by
  unfold stepLoop
  rw [h]
  simp [hc]

theorem iterateLoop_succ_outer (n : ℕ) (ls : LoopState K) :
    iterateLoop slack w courses (n + 1) ls =
      stepLoop slack w courses (iterateLoop slack w courses n ls) := by
  induction n generalizing ls with
  | zero => rfl
  | succ m ih =>
    show iterateLoop slack w courses (m + 1) (stepLoop slack w courses ls) = _
    rw [ih]
    rfl

theorem iterateLoop_add (a b : ℕ) (ls : LoopState K) :
    iterateLoop slack w courses (a + b) ls =
      iterateLoop slack w courses b (iterateLoop slack w courses a ls) := by
  induction a generalizing ls with
  | zero => rw [Nat.zero_add]; rfl
  | succ m ih =>
    have e : m + 1 + b = (m + b) + 1 := by omega
    rw [e]
    show iterateLoop slack w courses (m + b) (stepLoop slack w courses ls) = _
    rw [ih]
    rfl

theorem mem_pushState {x s : SearchState K} :
    ∀ {q : List (SearchState K)}, x ∈ pushState s q ↔ x = s ∨ x ∈ q := by
  intro q
  induction q with
  | nil => simp [pushState]
  | cons y ys ih =>
    unfold pushState
    by_cases h : stateLT s y <;> simp [h, ih] <;> tauto

theorem pushState_perm (s : SearchState K) :
    ∀ (q : List (SearchState K)), List.Perm (pushState s q) (s :: q) := by
  intro q
  induction q with
  | nil => simp [pushState]
  | cons y ys ih =>
    unfold pushState
    by_cases h : stateLT s y
    · simp [h]
    · simp only [h, if_false]
      exact (ih.cons y).trans (List.Perm.swap _ _ _)

/-- Everything in the queue after expanding one state is either an old queue
member or a freshly built child of the expanded state. -/
theorem expand_fold_mem (path : List Section) (i : ℕ) (best : WithTop K)
    (secs : List Section)
    (acc : ℕ × List (SearchState K) × List (ℕ × List String)) :
    ∀ x ∈ (secs.foldl (expandChild slack w path i best) acc).2.1,
      x ∈ acc.2.1 ∨ ∃ s ∈ secs, ∃ c st n, w path s = some (c, st) ∧
        ¬ best + (slack : WithTop K) < (c : WithTop K) ∧
        x = ⟨c, n, path ++ [s], i + 1, st⟩ := by
  induction secs generalizing acc with
  | nil => intro x hx; exact Or.inl hx
  | cons s ss ih =>
    intro x hx
    simp only [List.foldl_cons] at hx
    rcases ih (expandChild slack w path i best acc s) x hx with h | ⟨t, ht, h⟩
    · unfold expandChild at h
      rcases hw : w path s with _ | ⟨c, st⟩
      · rw [hw] at h
        exact Or.inl h
      · rw [hw] at h
        by_cases hp : best + (slack : WithTop K) < (c : WithTop K)
        · simp only [hp, if_pos] at h
          exact Or.inl h
        · simp only [hp, if_neg, not_false_iff] at h
          by_cases hv : stateId (i + 1) (path ++ [s]) ∈ acc.2.2
          · simp only [hv, if_pos] at h
            exact Or.inl h
          · simp only [hv, if_neg, not_false_iff] at h
            rcases mem_pushState.mp h with h | h
            · exact Or.inr ⟨s, by simp, c, st, acc.1, hw, hp, h⟩
            · exact Or.inl h
    · exact Or.inr ⟨t, by simp [ht], h⟩


theorem branchPotential_pos (idx : ℕ) : 0 < branchPotential courses idx := by
  unfold branchPotential
  refine List.prod_pos ?_
  intro a ha
  rcases List.mem_map.mp ha with ⟨c, _, hc⟩
  omega

theorem branchPotential_last {idx : ℕ} (h : courses.length ≤ idx) :
    branchPotential courses idx = 1 := by
  unfold branchPotential
  rw [List.drop_eq_nil_of_le h]
  rfl

theorem branchPotential_cons {idx : ℕ} (h : idx < courses.length) :
    branchPotential courses idx =
      (courses[idx].sections.length + 1) * branchPotential courses (idx + 1) := by
  unfold branchPotential
  rw [List.drop_eq_getElem_cons h, List.map_cons, List.prod_cons]

theorem potential_nil : potential courses ([] : List (SearchState K)) = 0 := rfl

theorem potential_cons (st : SearchState K) (rest : List (SearchState K)) :
    potential courses (st :: rest) =
      branchPotential courses st.course_index + potential courses rest := by
  simp [potential]

theorem potential_pushState (s : SearchState K) (q : List (SearchState K)) :
    potential courses (pushState s q) =
      branchPotential courses s.course_index + potential courses q := by
  have h := (pushState_perm s q).map
    (fun x => branchPotential courses x.course_index)
  have := h.sum_eq
  simpa [potential] using this

theorem expandChild_potential (path : List Section) (i : ℕ) (best : WithTop K)
    (acc : ℕ × List (SearchState K) × List (ℕ × List String)) (s : Section) :
    potential courses (expandChild slack w path i best acc s).2.1 ≤
      potential courses acc.2.1 + branchPotential courses (i + 1) := by
  unfold expandChild
  rcases hw : w path s with _ | ⟨c, st⟩
  · simp
  · by_cases hp : best + (slack : WithTop K) < (c : WithTop K)
    · simp [hp]
    · simp only [hp, if_neg, not_false_iff]
      by_cases hv : stateId (i + 1) (path ++ [s]) ∈ acc.2.2
      · simp [hv]
      · simp only [hv, if_neg, not_false_iff]
        rw [potential_pushState]
        dsimp only
        omega

theorem expand_fold_potential (path : List Section) (i : ℕ) (best : WithTop K)
    (secs : List Section)
    (acc : ℕ × List (SearchState K) × List (ℕ × List String)) :
    potential courses
        (secs.foldl (expandChild slack w path i best) acc).2.1 ≤
      potential courses acc.2.1 +
        secs.length * branchPotential courses (i + 1) := by
  induction secs generalizing acc with
  | nil => simp
  | cons s ss ih =>
    simp only [List.foldl_cons, List.length_cons]
    have h1 := ih (expandChild slack w path i best acc s)
    have h2 := expandChild_potential slack w courses path i best acc s
    have h3 : (ss.length + 1) * branchPotential courses (i + 1) =
        ss.length * branchPotential courses (i + 1) +
          branchPotential courses (i + 1) := by ring
    omega

theorem potential_step_lt {ls : LoopState K} {st rest}
    (h : ls.queue = st :: rest) :
    potential courses (stepLoop slack w courses ls).queue <
      potential courses ls.queue := by
  by_cases hc : st.course_index = courses.length
  · rw [stepLoop_complete slack w courses h hc]
    show potential courses rest < potential courses ls.queue
    rw [h, potential_cons]
    have := branchPotential_pos courses st.course_index
    omega
  · rw [stepLoop_expand slack w courses h hc]
    show potential courses
        ((courses.getD st.course_index ⟨"", []⟩).sections.foldl
          (expandChild slack w st.path st.course_index ls.best_complete_cost)
          (ls.counter, rest, ls.visited)).2.1 < potential courses ls.queue
    rw [h, potential_cons]
    have hbound : (courses.getD st.course_index ⟨"", []⟩).sections.length *
        branchPotential courses (st.course_index + 1) <
        branchPotential courses st.course_index := by
      by_cases hlt : st.course_index < courses.length
      · rw [branchPotential_cons courses hlt]
        have hpos := branchPotential_pos courses (st.course_index + 1)
        have hg : courses.getD st.course_index ⟨"", []⟩ =
            courses[st.course_index] := by
          simp [List.getD_eq_getElem?_getD, List.getElem?_eq_getElem hlt]
        rw [hg]
        nlinarith
      · have hg : courses.getD st.course_index ⟨"", []⟩ = ⟨"", []⟩ := by
          have : courses[st.course_index]? = none :=
            List.getElem?_eq_none (by omega)
          simp [List.getD_eq_getElem?_getD, this]
        rw [hg]
        simpa using branchPotential_pos courses st.course_index
    have hf := expand_fold_potential slack w courses st.path st.course_index
      ls.best_complete_cost (courses.getD st.course_index ⟨"", []⟩).sections
      (ls.counter, rest, ls.visited)
    simp only at hf
    omega

theorem loop_drains (fuel : ℕ) (ls : LoopState K)
    (h : potential courses ls.queue ≤ fuel) :
    (iterateLoop slack w courses fuel ls).queue = [] := by
  induction fuel generalizing ls with
  | zero =>
    rcases hq : ls.queue with _ | ⟨st, rest⟩
    · exact hq
    · rw [hq, potential_cons] at h
      have := branchPotential_pos courses st.course_index
      omega
  | succ n ih =>
    show (iterateLoop slack w courses n (stepLoop slack w courses ls)).queue = []
    rcases hq : ls.queue with _ | ⟨st, rest⟩
    · rw [stepLoop_nil slack w courses hq]
      refine ih ls ?_
      rw [hq]
      exact Nat.zero_le n
    · have hlt := potential_step_lt slack w courses hq
      exact ih _ (by omega)

theorem search_terminates [Zero K] :
    (iterateLoop slack w courses (searchFuel courses) (initLoop K)).queue
      = [] := by
  refine loop_drains slack w courses _ _ ?_
  show potential courses [⟨0, 0, [], 0, ⟨0, 0⟩⟩] ≤ searchFuel courses
  rw [potential_cons]
  simp [potential_nil, searchFuel]

theorem queue_empty_fixpoint {ls : LoopState K} (h : ls.queue = []) (m : ℕ) :
    iterateLoop slack w courses m ls = ls := by
  induction m with
  | zero => rfl
  | succ n ih =>
    show iterateLoop slack w courses n (stepLoop slack w courses ls) = ls
    rw [stepLoop_nil slack w courses h]
    exact ih

theorem getD_course {idx : ℕ} (h : idx < courses.length) :
    courses.getD idx ⟨"", []⟩ = courses[idx] := by
  simp [List.getD_eq_getElem?_getD, List.getElem?_eq_getElem h]

end EngineLemmas

section InvariantLemmas

variable [LinearOrder K] [Add K] (slack : K)
variable (w : List Section → Section → Option (K × Stats))
variable (courses : List Course)

theorem LoopInv_step {ls : LoopState K} (h : LoopInv courses w ls) :
    LoopInv courses w (stepLoop slack w courses ls) := by
  rcases hq : ls.queue with _ | ⟨st, rest⟩
  · rw [stepLoop_nil slack w courses hq]
    exact h
  · have hst := h.1 st (by rw [hq]; exact List.mem_cons_self _ _)
    by_cases hc : st.course_index = courses.length
    · rw [stepLoop_complete slack w courses hq hc]
      refine ⟨?_, ?_⟩
      · intro s hs
        exact h.1 s (by rw [hq]; exact List.mem_cons_of_mem _ hs)
      · intro e he
        rcases List.mem_append.mp he with he | he
        · exact h.2 e he
        · simp only [List.mem_singleton] at he
          subst he
          refine ⟨rfl, ?_, ?_, ?_⟩
          · rw [hst.1.1, hc]
          · intro i hi
            exact hst.1.2.2 i (by omega)
          · intro hn
            rcases hst.2 (by omega) with ⟨pre, last, hp, hw2⟩
            exact ⟨pre, last, hp, hw2⟩
    · rw [stepLoop_expand slack w courses hq hc]
      refine ⟨?_, h.2⟩
      intro s hs
      have hmem := expand_fold_mem slack w st.path st.course_index
        ls.best_complete_cost (courses.getD st.course_index ⟨"", []⟩).sections
        (ls.counter, rest, ls.visited) s hs
      rcases hmem with hold | ⟨sec, hsec, c, stt, nn, hw2, _, rfl⟩
      · exact h.1 s (by rw [hq]; exact List.mem_cons_of_mem _ hold)
      · have hlt : st.course_index < courses.length :=
          lt_of_le_of_ne hst.1.2.1 hc
        rw [getD_course courses hlt] at hsec
        refine ⟨⟨?_, by dsimp only; omega, ?_⟩, ?_⟩
        · simp [hst.1.1]
        · intro i hi
          dsimp only at hi ⊢
          by_cases hii : i < st.course_index
          · rcases hst.1.2.2 i hii with ⟨se, c2, h1, h2, h3⟩
            refine ⟨se, c2, ?_, h2, h3⟩
            rw [List.getElem?_append_left (by rw [hst.1.1]; exact hii)]
            exact h1
          · have hie : i = st.course_index := by omega
            refine ⟨sec, courses[st.course_index], ?_, ?_, hsec⟩
            · rw [hie, ← hst.1.1]
              exact List.getElem?_concat_length _ _
            · rw [hie]
              exact List.getElem?_eq_getElem hlt
        · intro _
          exact ⟨st.path, sec, rfl, hw2⟩

theorem LoopInv_iterate (fuel : ℕ) {ls : LoopState K}
    (h : LoopInv courses w ls) :
    LoopInv courses w (iterateLoop slack w courses fuel ls) := by
  induction fuel generalizing ls with
  | zero => exact h
  | succ n ih => exact ih (LoopInv_step slack w courses h)

theorem LoopInv_init [Zero K] : LoopInv courses w (initLoop K) := by
  refine ⟨?_, ?_⟩
  · intro s hs
    simp only [initLoop, List.mem_singleton] at hs
    subst hs
    exact ⟨⟨rfl, Nat.zero_le _, by intro i hi; dsimp only at hi; omega⟩,
      by intro hn; dsimp only at hn; omega⟩
  · intro e he
    simp [initLoop] at he

theorem CntInv_step {ls : LoopState K} (h : CntInv ls) :
    CntInv (stepLoop slack w courses ls) := by
  rcases hq : ls.queue with _ | ⟨st, rest⟩
  · rw [stepLoop_nil slack w courses hq]
    exact h
  · by_cases hc : st.course_index = courses.length
    · rw [stepLoop_complete slack w courses hq hc]
      unfold CntInv at h ⊢
      simp only [List.map_append, List.map_cons, List.map_nil]
      rw [h, List.range_succ]
    · rw [stepLoop_expand slack w courses hq hc]
      exact h

theorem CntInv_iterate (fuel : ℕ) {ls : LoopState K} (h : CntInv ls) :
    CntInv (iterateLoop slack w courses fuel ls) := by
  induction fuel generalizing ls with
  | zero => exact h
  | succ n ih => exact ih (CntInv_step slack w courses h)

theorem CntInv_init [Zero K] : CntInv (initLoop K) := by
  unfold CntInv initLoop
  simp

theorem recordedResults_EntryOK [Zero K] :
    ∀ e ∈ recordedResults slack w courses, EntryOK courses w e := by
  intro e he
  unfold recordedResults at he
  by_cases h : courses.length = 0
  · simp [h] at he
  · rw [if_neg h] at he
    exact (LoopInv_iterate slack w courses _ (LoopInv_init w courses)).2 e he

theorem recorded_counters_nodup [Zero K] :
    ((recordedResults slack w courses).map (fun e => e.2.1)).Nodup := by
  unfold recordedResults
  by_cases h : courses.length = 0
  · simp [h]
  · rw [if_neg h]
    have hc := CntInv_iterate slack w courses (searchFuel courses) CntInv_init
    unfold CntInv at hc
    rw [hc]
    exact List.nodup_range _

theorem mem_optimize_core [Zero K] (top : ℕ) (r : Schedule K)
    (hr : r ∈ optimize_core slack w courses top) :
    ∃ e, e ∈ recordedResults slack w courses ∧ e.2.2 = r := by
  rw [optimize_core_eq] at hr
  rcases List.mem_map.mp hr with ⟨e, he, hee⟩
  refine ⟨e, ?_, hee⟩
  have h1 : e ∈ List.insertionSort resultLE (recordedResults slack w courses) :=
    (List.take_sublist _ _).subset he
  exact (List.perm_insertionSort resultLE _).subset h1

theorem empty_course_step (j : ℕ) (hj : j < courses.length)
    (hcs : courses[j].sections = []) {ls : LoopState K}
    (h1 : ∀ s ∈ ls.queue, s.course_index ≤ j) (h2 : ls.results = []) :
    (∀ s ∈ (stepLoop slack w courses ls).queue, s.course_index ≤ j) ∧
      (stepLoop slack w courses ls).results = [] := by
  rcases hq : ls.queue with _ | ⟨st, rest⟩
  · rw [stepLoop_nil slack w courses hq]
    exact ⟨h1, h2⟩
  · have hst := h1 st (by rw [hq]; exact List.mem_cons_self _ _)
    have hc : ¬ st.course_index = courses.length := by omega
    rw [stepLoop_expand slack w courses hq hc]
    refine ⟨?_, h2⟩
    intro s hs
    have hmem := expand_fold_mem slack w st.path st.course_index
      ls.best_complete_cost (courses.getD st.course_index ⟨"", []⟩).sections
      (ls.counter, rest, ls.visited) s hs
    rcases hmem with hold | ⟨sec, hsec, c, stt, nn, hw2, _, rfl⟩
    · exact h1 s (by rw [hq]; exact List.mem_cons_of_mem _ hold)
    · dsimp only
      by_cases he : st.course_index = j
      · rw [he, getD_course courses hj, hcs] at hsec
        exact absurd hsec (List.not_mem_nil _)
      · omega

theorem empty_course_iterate (j : ℕ) (hj : j < courses.length)
    (hcs : courses[j].sections = []) (fuel : ℕ) {ls : LoopState K}
    (h1 : ∀ s ∈ ls.queue, s.course_index ≤ j) (h2 : ls.results = []) :
    (iterateLoop slack w courses fuel ls).results = [] := by
  induction fuel generalizing ls with
  | zero => exact h2
  | succ n ih =>
    have := empty_course_step slack w courses j hj hcs h1 h2
    exact ih this.1 this.2

end InvariantLemmas

theorem optimize_schedule_eq (courses : List Course) (top : ℕ)
    (gap_exponent : ℝ) :
    optimize_schedule courses top gap_exponent =
      optimize_core (60 : ℝ) (wReal gap_exponent) courses top := rfl

/-- C9: the search terminates on every input.  The frontier of
`optimize_schedule` is empty after `searchFuel courses` iterations, further
iterations leave the loop state unchanged, and while the frontier is nonempty
every iteration strictly decreases the `potential` measure (each expansion
replaces a state at `next_course_index = i` by at most one child per
candidate section, all at index `i + 1`). -/
theorem C9_termination (courses : List Course) (gap_exponent : ℝ) :
    (iterateLoop (60 : ℝ) (wReal gap_exponent) courses (searchFuel courses)
        (initLoop ℝ)).queue = [] ∧
    (∀ m : ℕ, iterateLoop (60 : ℝ) (wReal gap_exponent) courses
        (searchFuel courses + m) (initLoop ℝ) =
      iterateLoop (60 : ℝ) (wReal gap_exponent) courses (searchFuel courses)
        (initLoop ℝ)) ∧
    (∀ fuel : ℕ,
      (iterateLoop (60 : ℝ) (wReal gap_exponent) courses fuel
          (initLoop ℝ)).queue ≠ [] →
      potential courses (iterateLoop (60 : ℝ) (wReal gap_exponent) courses
          (fuel + 1) (initLoop ℝ)).queue <
        potential courses (iterateLoop (60 : ℝ) (wReal gap_exponent) courses
          fuel (initLoop ℝ)).queue) := by
  refine ⟨search_terminates _ _ _, ?_, ?_⟩
  · intro m
    rw [iterateLoop_add]
    exact queue_empty_fixpoint _ _ _ (search_terminates _ _ _) m
  · intro fuel hne
    rw [iterateLoop_succ_outer]
    rcases hq : (iterateLoop (60 : ℝ) (wReal gap_exponent) courses fuel
        (initLoop ℝ)).queue with _ | ⟨st, rest⟩
    · exact absurd hq hne
    · have hlt := potential_step_lt (60 : ℝ) (wReal gap_exponent) courses hq
      rw [hq] at hlt
      exact hlt

/-- C6: an empty course list, or any course with an empty candidate section
list, makes `optimize_schedule` return the empty list (no complete state is
ever recorded; no exception is possible in the total model). -/
theorem C6_degenerate_inputs (courses : List Course) (top : ℕ)
    (gap_exponent : ℝ)
    (h : courses = [] ∨ ∃ c ∈ courses, c.sections = []) :
    optimize_schedule courses top gap_exponent = [] := by
  rcases h with h | ⟨c, hc, hcs⟩
  · subst h
    rfl
  · rcases List.mem_iff_getElem.mp hc with ⟨j, hj, hje⟩
    have hcs2 : courses[j].sections = [] := by rw [hje]; exact hcs
    have hres : (iterateLoop (60 : ℝ) (wReal gap_exponent) courses
        (searchFuel courses) (initLoop ℝ)).results = [] :=
      empty_course_iterate (60 : ℝ) (wReal gap_exponent) courses j
      hj hcs2 (searchFuel courses)
      (by
        intro s hs
        simp only [initLoop, List.mem_singleton] at hs
        subst hs
        exact Nat.zero_le j)
      rfl
    rw [optimize_schedule_eq, optimize_core_eq]
    have hrec : recordedResults (60 : ℝ) (wReal gap_exponent) courses = [] := by
      unfold recordedResults
      by_cases hlen : courses.length = 0
      · rw [if_pos hlen]
      · rw [if_neg hlen]
        exact hres
    rw [hrec]
    simp

/-- C10: invariant of every reachable frontier state of `optimize_schedule`:
the path length equals the course index and the i-th path entry is one of the
i-th course's candidate sections; consequently every returned schedule has
exactly one section per input course, in course order. -/
theorem C10_one_section_per_course (courses : List Course) (top : ℕ)
    (gap_exponent : ℝ) :
    (∀ fuel : ℕ, ∀ s ∈ (iterateLoop (60 : ℝ) (wReal gap_exponent) courses
        fuel (initLoop ℝ)).queue,
      s.path.length = s.course_index ∧
      ∀ i, i < s.course_index → ∃ sec c, s.path[i]? = some sec ∧
        courses[i]? = some c ∧ sec ∈ c.sections) ∧
    (∀ r ∈ optimize_schedule courses top gap_exponent,
      r.sections.length = courses.length ∧
      ∀ i, i < courses.length → ∃ sec c, r.sections[i]? = some sec ∧
        courses[i]? = some c ∧ sec ∈ c.sections) := by
  constructor
  · intro fuel s hs
    have hinv := (LoopInv_iterate (60 : ℝ) (wReal gap_exponent) courses fuel
      (LoopInv_init (wReal gap_exponent) courses)).1 s hs
    exact ⟨hinv.1.1, hinv.1.2.2⟩
  · intro r hr
    rw [optimize_schedule_eq] at hr
    rcases mem_optimize_core (60 : ℝ) (wReal gap_exponent) courses top r hr
      with ⟨e, he, hee⟩
    have hok := recordedResults_EntryOK (60 : ℝ) (wReal gap_exponent) courses
      e he
    rw [← hee]
    exact ⟨hok.2.1, hok.2.2.1⟩

theorem adjusted_gap_lower (g : ℝ) : g < adjusted_gap g 30 50 15 := by
  unfold adjusted_gap
  have := Real.exp_pos (-((g - 50) ^ 2) / (2 * 15 ^ 2))
  nlinarith

theorem adjusted_gap_upper (g : ℝ) : adjusted_gap g 30 50 15 ≤ g + 30 := by
  unfold adjusted_gap
  have hle : Real.exp (-((g - 50) ^ 2) / (2 * 15 ^ 2)) ≤ 1 := by
    rw [Real.exp_le_one_iff]
    have h2 : (0 : ℝ) ≤ (g - 50) ^ 2 := sq_nonneg _
    have h3 : (0 : ℝ) ≤ 2 * 15 ^ 2 := by norm_num
    exact div_nonpos_of_nonpos_of_nonneg (by nlinarith) h3
  nlinarith

theorem adjusted_gap_nonneg {g : ℝ} (h : 0 ≤ g) :
    0 ≤ adjusted_gap g 30 50 15 :=
  le_trans h (le_of_lt (adjusted_gap_lower g))

theorem gapContribution_pos {g : ℝ} (h : 0 < g) : 0 < gapContribution g :=
  Real.rpow_pos_of_pos (lt_trans h (adjusted_gap_lower g)) _

theorem gapContribution_lt_far {a b : ℝ} (ha : 0 ≤ a) (h : a + 30 ≤ b) :
    gapContribution a < gapContribution b := by
  unfold gapContribution
  refine Real.rpow_lt_rpow (adjusted_gap_nonneg ha) ?_ (by norm_num)
  have h1 := adjusted_gap_upper a
  have h2 := adjusted_gap_lower b
  linarith

theorem adjusted_gap_mono_le_mid {a b : ℝ} (h : a < b) (hb : b ≤ 50) :
    adjusted_gap a 30 50 15 < adjusted_gap b 30 50 15 := by
  unfold adjusted_gap
  have he : Real.exp (-((a - 50) ^ 2) / (2 * 15 ^ 2)) ≤
      Real.exp (-((b - 50) ^ 2) / (2 * 15 ^ 2)) := by
    apply Real.exp_le_exp.mpr
    have hsq : (b - 50) ^ 2 ≤ (a - 50) ^ 2 := by nlinarith
    have h450 : (0 : ℝ) < 2 * 15 ^ 2 := by norm_num
    exact (div_le_div_iff_of_pos_right h450).mpr (by linarith)
  nlinarith

theorem gapContribution_mono_le_mid {a b : ℝ} (ha : 0 ≤ a) (h : a < b)
    (hb : b ≤ 50) : gapContribution a < gapContribution b :=
  Real.rpow_lt_rpow (adjusted_gap_nonneg ha)
    (adjusted_gap_mono_le_mid h hb) (by norm_num)

theorem costPair_lt_far {a b : ℝ} (ha : 0 ≤ a) (h : a + 30 ≤ b) :
    costPair a < costPair b := by
  unfold costPair
  have := gapContribution_lt_far ha h
  linarith

theorem costPair_gt_base {g : ℝ} (h : 0 < g) : 15 < costPair g := by
  unfold costPair
  have := gapContribution_pos h
  linarith

theorem cw_nil_s1 : calculate_weight [] mock_section_1 (0.75 : ℝ) =
    some (15, ⟨0, 1⟩) := by
  simp [calculate_weight, day_meetings, allMeetings, mock_section_1, addPair,
    goDays, dayScan, List.insertionSort, List.orderedInsert, DAY_WEIGHT]

theorem cw_nil_s2 : calculate_weight [] mock_section_2 (0.75 : ℝ) =
    some (15, ⟨0, 1⟩) := by
  simp [calculate_weight, day_meetings, allMeetings, mock_section_2, addPair,
    goDays, dayScan, List.insertionSort, List.orderedInsert, DAY_WEIGHT]

theorem cw_s1_s3 : calculate_weight [mock_section_1] mock_section_3
    (0.75 : ℝ) = some (costPair 10, ⟨10, 1⟩) := by
  simp [calculate_weight, day_meetings, allMeetings, mock_section_1,
    mock_section_3, addPair, goDays, dayScan, List.insertionSort,
    List.orderedInsert, pairLE, DAY_WEIGHT, costPair, gapContribution]

theorem cw_s1_s4 : calculate_weight [mock_section_1] mock_section_4
    (0.75 : ℝ) = some (costPair 310, ⟨310, 1⟩) := by
  simp [calculate_weight, day_meetings, allMeetings, mock_section_1,
    mock_section_4, addPair, goDays, dayScan, List.insertionSort,
    List.orderedInsert, pairLE, DAY_WEIGHT, costPair, gapContribution]

theorem cw_s2_s3 : calculate_weight [mock_section_2] mock_section_3
    (0.75 : ℝ) = some (costPair 130, ⟨130, 1⟩) := by
  simp [calculate_weight, day_meetings, allMeetings, mock_section_2,
    mock_section_3, addPair, goDays, dayScan, List.insertionSort,
    List.orderedInsert, pairLE, DAY_WEIGHT, costPair, gapContribution]

theorem cw_s2_s4 : calculate_weight [mock_section_2] mock_section_4
    (0.75 : ℝ) = some (costPair 70, ⟨70, 1⟩) := by
  simp [calculate_weight, day_meetings, allMeetings, mock_section_2,
    mock_section_4, addPair, goDays, dayScan, List.insertionSort,
    List.orderedInsert, pairLE, DAY_WEIGHT, costPair, gapContribution]

theorem ms1_id : mock_section_1.section_id = "MockCourse1-10AM" := rfl

theorem ms2_id : mock_section_2.section_id = "MockCourse1-2PM" := rfl

theorem ms3_id : mock_section_3.section_id = "MockCourse2-11AM" := rfl

theorem ms4_id : mock_section_4.section_id = "MockCourse2-4PM" := rfl

theorem mock_step1 : stepLoop (60 : ℝ) (wReal (0.75 : ℝ)) mockCourses
    (initLoop ℝ) = mockLS1 := by
  simp [stepLoop, initLoop, mockCourses, mock_course_1, expandChild, wReal,
    cw_nil_s1, cw_nil_s2, stateId, pushState, stateLT, mockLS1, mockS1,
    mockS2, mockIds1, WithTop.top_add, ms1_id, ms2_id]

theorem mock_step2 : stepLoop (60 : ℝ) (wReal (0.75 : ℝ)) mockCourses
    mockLS1 = mockLS2 := by
  have h1 : (15 : ℝ) < costPair 10 := costPair_gt_base (by norm_num)
  have h2 : (15 : ℝ) < costPair 310 := costPair_gt_base (by norm_num)
  have h3 : costPair 10 < costPair 310 :=
    costPair_lt_far (by norm_num) (by norm_num)
  simp [stepLoop, mockLS1, mockLS2, mockCourses, mock_course_2, expandChild,
    wReal, cw_s1_s3, cw_s1_s4, stateId, pushState, stateLT, mockS1, mockS2,
    mockS3, mockS4, mockIds1, mockIds2, WithTop.top_add, ms1_id, ms3_id,
    ms4_id, h1.not_lt, h1.ne', h2.not_lt, h2.ne', h3.not_lt, h3.ne']

theorem mock_step3 : stepLoop (60 : ℝ) (wReal (0.75 : ℝ)) mockCourses
    mockLS2 = mockLS3 := by
  have h1 : costPair 10 < costPair 130 :=
    costPair_lt_far (by norm_num) (by norm_num)
  have h2 : costPair 130 < costPair 310 :=
    costPair_lt_far (by norm_num) (by norm_num)
  have h3 : costPair 10 < costPair 70 :=
    costPair_lt_far (by norm_num) (by norm_num)
  have h4 : costPair 70 < costPair 130 :=
    costPair_lt_far (by norm_num) (by norm_num)
  have h5 : (15 : ℝ) < costPair 130 := costPair_gt_base (by norm_num)
  have h6 : (15 : ℝ) < costPair 70 := costPair_gt_base (by norm_num)
  simp [stepLoop, mockLS2, mockLS3, mockCourses, mock_course_2, expandChild,
    wReal, cw_s2_s3, cw_s2_s4, stateId, pushState, stateLT, mockS2, mockS3,
    mockS4, mockS5, mockS6, mockIds1, mockIds2, mockIds3, WithTop.top_add,
    ms2_id, ms3_id, ms4_id, h1.asymm, h1.ne', h2, h3.asymm, h3.ne', h4,
    h5.not_lt, h5.ne', h6.not_lt, h6.ne']

theorem mock_step4 : stepLoop (60 : ℝ) (wReal (0.75 : ℝ)) mockCourses
    mockLS3 = mockLS4 := by
  have hmin : min (⊤ : WithTop ℝ) ((costPair 10 : ℝ) : WithTop ℝ) =
      ((costPair 10 : ℝ) : WithTop ℝ) := min_eq_right le_top
  simp [stepLoop, mockLS3, mockLS4, mockCourses, mockS3, R1011, hmin]

theorem mock_step5 : stepLoop (60 : ℝ) (wReal (0.75 : ℝ)) mockCourses
    mockLS4 = mockLS5 := by
  have h1 : costPair 10 < costPair 70 :=
    costPair_lt_far (by norm_num) (by norm_num)
  have hmin : min ((costPair 10 : ℝ) : WithTop ℝ)
      ((costPair 70 : ℝ) : WithTop ℝ) = ((costPair 10 : ℝ) : WithTop ℝ) :=
    min_eq_left (WithTop.coe_le_coe.mpr h1.le)
  simp [stepLoop, mockLS4, mockLS5, mockCourses, mockS6, R1416, hmin]

theorem mock_step6 : stepLoop (60 : ℝ) (wReal (0.75 : ℝ)) mockCourses
    mockLS5 = mockLS6 := by
  have h1 : costPair 10 < costPair 130 :=
    costPair_lt_far (by norm_num) (by norm_num)
  have hmin : min ((costPair 10 : ℝ) : WithTop ℝ)
      ((costPair 130 : ℝ) : WithTop ℝ) = ((costPair 10 : ℝ) : WithTop ℝ) :=
    min_eq_left (WithTop.coe_le_coe.mpr h1.le)
  simp [stepLoop, mockLS5, mockLS6, mockCourses, mockS5, R1411, hmin]

theorem mock_step7 : stepLoop (60 : ℝ) (wReal (0.75 : ℝ)) mockCourses
    mockLS6 = mockLS7 := by
  have h1 : costPair 10 < costPair 310 :=
    costPair_lt_far (by norm_num) (by norm_num)
  have hmin : min ((costPair 10 : ℝ) : WithTop ℝ)
      ((costPair 310 : ℝ) : WithTop ℝ) = ((costPair 10 : ℝ) : WithTop ℝ) :=
    min_eq_left (WithTop.coe_le_coe.mpr h1.le)
  simp [stepLoop, mockLS6, mockLS7, mockCourses, mockS4, R1016, hmin]

theorem iterateLoop_succ_inner [LinearOrder K] [Add K] (slack : K)
    (w : List Section → Section → Option (K × Stats))
    (courses : List Course) (n : ℕ) (ls : LoopState K) :
    iterateLoop slack w courses (n + 1) ls =
      iterateLoop slack w courses n (stepLoop slack w courses ls) := rfl

theorem mock_fuel : searchFuel mockCourses = 9 := rfl

theorem mock_final : iterateLoop (60 : ℝ) (wReal (0.75 : ℝ)) mockCourses
    (searchFuel mockCourses) (initLoop ℝ) = mockLS7 := by
  rw [mock_fuel]
  rw [show (9 : ℕ) = 8 + 1 from rfl, iterateLoop_succ_inner, mock_step1]
  rw [show (8 : ℕ) = 7 + 1 from rfl, iterateLoop_succ_inner, mock_step2]
  rw [show (7 : ℕ) = 6 + 1 from rfl, iterateLoop_succ_inner, mock_step3]
  rw [show (6 : ℕ) = 5 + 1 from rfl, iterateLoop_succ_inner, mock_step4]
  rw [show (5 : ℕ) = 4 + 1 from rfl, iterateLoop_succ_inner, mock_step5]
  rw [show (4 : ℕ) = 3 + 1 from rfl, iterateLoop_succ_inner, mock_step6]
  rw [show (3 : ℕ) = 2 + 1 from rfl, iterateLoop_succ_inner, mock_step7]
  exact queue_empty_fixpoint (60 : ℝ) (wReal (0.75 : ℝ)) mockCourses rfl 2

theorem mock_recorded : recordedResults (60 : ℝ) (wReal (0.75 : ℝ))
    mockCourses =
    [(costPair 10, 0, R1011), (costPair 70, 1, R1416),
      (costPair 130, 2, R1411), (costPair 310, 3, R1016)] := by
  unfold recordedResults
  rw [if_neg (by simp [mockCourses]), mock_final]
  rfl

theorem mock_search (top : ℕ) :
    optimize_schedule mockCourses top (0.75 : ℝ) =
      ([R1011, R1416, R1411, R1016].take top) := by
  have hab : resultLE (costPair 10, 0, R1011) (costPair 70, 1, R1416) :=
    Or.inl (costPair_lt_far (by norm_num) (by norm_num))
  have hbc : resultLE (costPair 70, 1, R1416) (costPair 130, 2, R1411) :=
    Or.inl (costPair_lt_far (by norm_num) (by norm_num))
  have hcd : resultLE (costPair 130, 2, R1411) (costPair 310, 3, R1016) :=
    Or.inl (costPair_lt_far (by norm_num) (by norm_num))
  rw [optimize_schedule_eq, optimize_core_eq, mock_recorded]
  rw [List.insertionSort, List.insertionSort, List.insertionSort,
    List.insertionSort, List.insertionSort,
    List.orderedInsert_nil, List.orderedInsert_of_le resultLE _ hcd,
    List.orderedInsert_of_le resultLE _ hbc,
    List.orderedInsert_of_le resultLE _ hab]
  rw [List.map_take]
  rfl

theorem cw_single : calculate_weight [] single_section (0.75 : ℝ) =
    some (15, ⟨0, 1⟩) := by
  simp [calculate_weight, day_meetings, allMeetings, single_section, addPair,
    goDays, dayScan, List.insertionSort, List.orderedInsert, DAY_WEIGHT]

theorem single_step1 : stepLoop (60 : ℝ) (wReal (0.75 : ℝ)) singleCourses
    (initLoop ℝ) = singleLS1 := by
  simp [stepLoop, initLoop, singleCourses, single_course, expandChild, wReal,
    cw_single, stateId, pushState, stateLT, singleLS1, singleS1, singleIds,
    WithTop.top_add, show single_section.section_id = "SoloCourse-0101"
      from rfl]

theorem single_step2 : stepLoop (60 : ℝ) (wReal (0.75 : ℝ)) singleCourses
    singleLS1 = singleLS2 := by
  have hmin : min (⊤ : WithTop ℝ) (((15 : ℝ)) : WithTop ℝ) =
      (((15 : ℝ)) : WithTop ℝ) := min_eq_right le_top
  simp [stepLoop, singleLS1, singleLS2, singleCourses, singleS1, singleR,
    hmin]

theorem single_final : iterateLoop (60 : ℝ) (wReal (0.75 : ℝ)) singleCourses
    (searchFuel singleCourses) (initLoop ℝ) = singleLS2 := by
  rw [show searchFuel singleCourses = 2 from rfl]
  rw [show (2 : ℕ) = 1 + 1 from rfl, iterateLoop_succ_inner, single_step1]
  rw [show (1 : ℕ) = 0 + 1 from rfl, iterateLoop_succ_inner, single_step2]
  rfl

theorem single_recorded : recordedResults (60 : ℝ) (wReal (0.75 : ℝ))
    singleCourses = [(15, 0, singleR)] := by
  unfold recordedResults
  rw [if_neg (by simp [singleCourses]), single_final]
  rfl

theorem single_search (top : ℕ) :
    optimize_schedule singleCourses top (0.75 : ℝ) = [singleR].take top := by
  rw [optimize_schedule_eq, optimize_core_eq, single_recorded]
  rw [List.map_take]
  rfl

theorem lookupDay_addPair_same (d : String) (p : ℤ × ℤ) :
    ∀ acc, lookupDay d (addPair acc d p) = lookupDay d acc ++ [p] := by
  intro acc
  induction acc with
  | nil => simp [addPair, lookupDay]
  | cons kv rest ih =>
    rcases kv with ⟨k, ps⟩
    by_cases hk : k = d
    · subst hk
      simp [addPair, lookupDay]
    · simp [addPair, lookupDay, hk, ih]

theorem lookupDay_addPair_other {d k : String} (hk : k ≠ d) (p : ℤ × ℤ) :
    ∀ acc, lookupDay d (addPair acc k p) = lookupDay d acc := by
  intro acc
  induction acc with
  | nil => simp [addPair, lookupDay, hk]
  | cons kv rest ih =>
    rcases kv with ⟨k2, ps⟩
    by_cases hk2 : k2 = k
    · subst hk2
      simp [addPair, lookupDay, hk]
    · simp only [addPair, hk2, if_neg, not_false_iff]
      by_cases hk3 : k2 = d
      · subst hk3
        simp [lookupDay]
      · simp [lookupDay, hk3, ih]

theorem lookupDay_fold (d : String) :
    ∀ (ms : List Meeting) (acc : List (String × List (ℤ × ℤ))),
      lookupDay d (ms.foldl
        (fun a m => addPair a m.day (m.start_time, m.end_time)) acc) =
      lookupDay d acc ++ meetingsOnDay ms d := by
  intro ms
  induction ms with
  | nil => intro acc; simp [meetingsOnDay]
  | cons m rest ih =>
    intro acc
    simp only [List.foldl_cons]
    rw [ih]
    by_cases hd : m.day = d
    · rw [hd, lookupDay_addPair_same]
      simp [meetingsOnDay, hd, List.filter_cons]
    · rw [lookupDay_addPair_other hd]
      simp [meetingsOnDay, List.filter_cons, hd]

theorem lookupDay_mem {d : String} :
    ∀ {acc : List (String × List (ℤ × ℤ))}, lookupDay d acc ≠ [] →
      (d, lookupDay d acc) ∈ acc := by
  intro acc
  induction acc with
  | nil => intro h; simp [lookupDay] at h
  | cons kv rest ih =>
    rcases kv with ⟨k, ps⟩
    by_cases hk : k = d
    · subst hk
      intro _
      simp [lookupDay]
    · intro h
      rw [lookupDay] at h ⊢
      rw [if_neg hk] at h ⊢
      exact List.mem_cons_of_mem _ (ih h)

theorem goDays_some_day {g : ℝ} :
    ∀ {dm : List (String × List (ℤ × ℤ))} {x}, goDays g dm = some x →
      ∀ p ∈ dm, ∃ y, dayScan g (List.insertionSort pairLE p.2) = some y := by
  intro dm
  induction dm with
  | nil => intro x _ p hp; exact absurd hp (List.not_mem_nil p)
  | cons kv rest ih =>
    intro x h p hp
    rcases kv with ⟨k, ps⟩
    rw [goDays] at h
    rcases hscan : dayScan g (List.insertionSort pairLE ps) with _ | y
    · rw [hscan] at h
      exact absurd h (by simp)
    · rw [hscan] at h
      rcases hrest : goDays g rest with _ | z
      · rw [hrest] at h
        exact absurd h (by simp)
      · rcases List.mem_cons.mp hp with hp | hp
        · subst hp
          exact ⟨y, hscan⟩
        · exact ih hrest p hp

theorem dayScan_some_chain (g : ℝ) :
    ∀ (l : List (ℤ × ℤ)) (x : ℝ × ℤ), dayScan g l = some x →
      List.Chain' (fun a b : ℤ × ℤ => a.2 ≤ b.1) l
  | [], _, _ => List.chain'_nil
  | [a], _, _ => List.chain'_singleton a
  | (s1, e1) :: (s2, e2) :: t, x, h => by
    rw [dayScan] at h
    by_cases hc : e1 > s2
    · rw [if_pos hc] at h
      exact absurd h (by simp)
    · rw [if_neg hc] at h
      rcases hr : dayScan g ((s2, e2) :: t) with _ | y
      · rw [hr] at h
        exact absurd h (by simp)
      · have ih := dayScan_some_chain g ((s2, e2) :: t) y hr
        exact List.chain'_cons.mpr ⟨by omega, ih⟩

theorem sorted_chain'_pairwise :
    ∀ (l : List (ℤ × ℤ)), List.Sorted pairLE l →
      List.Chain' (fun a b : ℤ × ℤ => a.2 ≤ b.1) l →
      List.Pairwise (fun a b : ℤ × ℤ => a.2 ≤ b.1) l
  | [], _, _ => List.Pairwise.nil
  | a :: t, hs, hc => by
    refine List.Pairwise.cons ?_ ?_
    · intro y hy
      rcases t with _ | ⟨z, t2⟩
      · exact absurd hy (List.not_mem_nil y)
      · have h1 : a.2 ≤ z.1 := (List.chain'_cons.mp hc).1
        rcases List.mem_cons.mp hy with hy | hy
        · subst hy; exact h1
        · have h2 : pairLE z y :=
            List.rel_of_sorted_cons (List.Sorted.of_cons hs) y hy
          rcases h2 with h2 | ⟨h2, _⟩
          · omega
          · omega
    · exact sorted_chain'_pairwise t (List.Sorted.of_cons hs)
        (List.Chain'.tail hc)

theorem day_pairs_ok {path : List Section} {s : Section} {g : ℝ}
    {x : ℝ × Stats} (h : calculate_weight path s g = some x) (d : String) :
    List.Pairwise NoOverlapPair (meetingsOnDay (allMeetings path s) d) := by
  have hlook : lookupDay d (day_meetings path s) =
      meetingsOnDay (allMeetings path s) d := by
    unfold day_meetings
    rw [lookupDay_fold]
    simp [lookupDay]
  by_cases hml : meetingsOnDay (allMeetings path s) d = []
  · rw [hml]
    exact List.Pairwise.nil
  · have hmem : (d, meetingsOnDay (allMeetings path s) d) ∈
        day_meetings path s := by
      rw [← hlook]
      exact lookupDay_mem (by rw [hlook]; exact hml)
    unfold calculate_weight at h
    rcases hg : goDays g (day_meetings path s) with _ | y
    · rw [hg] at h
      exact absurd h (by simp)
    · rcases goDays_some_day hg _ hmem with ⟨z, hz⟩
      have hchain := dayScan_some_chain g _ z hz
      have hsorted := List.sorted_insertionSort pairLE
        (meetingsOnDay (allMeetings path s) d)
      have hpw := sorted_chain'_pairwise _ hsorted hchain
      have hpw2 : List.Pairwise
          (fun a b : ℤ × ℤ => a.2 ≤ b.1 ∨ b.2 ≤ a.1)
          (List.insertionSort pairLE
            (meetingsOnDay (allMeetings path s) d)) :=
        hpw.imp (fun hab => Or.inl hab)
      exact ((List.perm_insertionSort pairLE
        (meetingsOnDay (allMeetings path s) d)).pairwise_iff
          (fun hab => Or.symm hab)).mp hpw2

theorem meetings_pairwise {path : List Section} {s : Section} {g : ℝ}
    {x : ℝ × Stats} (h : calculate_weight path s g = some x) :
    List.Pairwise (fun m m2 : Meeting => m.day = m2.day →
      NoOverlapPair (m.start_time, m.end_time) (m2.start_time, m2.end_time))
      (allMeetings path s) := by
  rw [List.pairwise_iff_getElem]
  intro i j hi hj hij
  intro hday
  have hd := day_pairs_ok h ((allMeetings path s)[i].day)
  unfold meetingsOnDay at hd
  rw [List.pairwise_map, List.pairwise_filter] at hd
  have := (List.pairwise_iff_getElem.mp hd) i j hi hj hij
  exact this (by simp) (by simp [hday.symm])

theorem allMeetings_flatten (pre : List Section) (last : Section) :
    allMeetings pre last = ((pre ++ [last]).map Section.meetings).flatten := by
  simp [allMeetings]

theorem addPair_keys_occurs (d2 d : String) (p : ℤ × ℤ) :
    ∀ acc, d2 ∈ (addPair acc d p).map Prod.fst ↔
      d2 ∈ acc.map Prod.fst ∨ d2 = d := by
  intro acc
  induction acc with
  | nil => simp [addPair, eq_comm]
  | cons kv rest ih =>
    rcases kv with ⟨k, ps⟩
    by_cases hk : k = d
    · subst hk
      rw [show addPair ((k, ps) :: rest) k p = (k, ps ++ [p]) :: rest by
        simp [addPair]]
      simp only [List.map_cons, List.mem_cons]
      tauto
    · rw [show addPair ((k, ps) :: rest) d p = (k, ps) :: addPair rest d p by
        simp [addPair, hk]]
      simp only [List.map_cons, List.mem_cons, ih]
      tauto

theorem addPair_keys_nodup {d : String} {p : ℤ × ℤ} :
    ∀ {acc}, (acc.map Prod.fst).Nodup →
      ((addPair acc d p).map Prod.fst).Nodup := by
  intro acc
  induction acc with
  | nil => intro _; simp [addPair]
  | cons kv rest ih =>
    rcases kv with ⟨k, ps⟩
    intro h
    simp only [List.map_cons, List.nodup_cons] at h
    by_cases hk : k = d
    · subst hk
      simpa [addPair, List.nodup_cons] using h
    · simp only [addPair, if_neg hk, List.map_cons, List.nodup_cons]
      refine ⟨?_, ih h.2⟩
      rw [addPair_keys_occurs]
      push_neg
      exact ⟨h.1, hk⟩

theorem addPair_values_ne {d : String} {p : ℤ × ℤ} :
    ∀ {acc}, (∀ kv ∈ acc, kv.2 ≠ ([] : List (ℤ × ℤ))) →
      ∀ kv ∈ addPair acc d p, kv.2 ≠ [] := by
  intro acc
  induction acc with
  | nil =>
    intro _ kv hkv
    simp only [addPair, List.mem_singleton] at hkv
    subst hkv
    simp
  | cons kv0 rest ih =>
    rcases kv0 with ⟨k, ps⟩
    intro h kv hkv
    by_cases hk : k = d
    · subst hk
      rw [show addPair ((k, ps) :: rest) k p = (k, ps ++ [p]) :: rest by
        simp [addPair]] at hkv
      rcases List.mem_cons.mp hkv with hkv2 | hkv2
      · subst hkv2
        simp
      · exact h kv (List.mem_cons_of_mem _ hkv2)
    · rw [show addPair ((k, ps) :: rest) d p = (k, ps) :: addPair rest d p by
        simp [addPair, hk]] at hkv
      rcases List.mem_cons.mp hkv with hkv2 | hkv2
      · subst hkv2
        exact h _ (List.mem_cons_self _ _)
      · exact ih (fun e he => h e (List.mem_cons_of_mem _ he)) kv hkv2

theorem fold_keys_nodup :
    ∀ (ms : List Meeting) (acc : List (String × List (ℤ × ℤ))),
      (acc.map Prod.fst).Nodup →
      (((ms.foldl (fun a m => addPair a m.day (m.start_time, m.end_time))
        acc)).map Prod.fst).Nodup := by
  intro ms
  induction ms with
  | nil => intro acc h; exact h
  | cons m rest ih =>
    intro acc h
    exact ih _ (addPair_keys_nodup h)

theorem fold_values_ne :
    ∀ (ms : List Meeting) (acc : List (String × List (ℤ × ℤ))),
      (∀ kv ∈ acc, kv.2 ≠ ([] : List (ℤ × ℤ))) →
      ∀ kv ∈ ms.foldl (fun a m => addPair a m.day (m.start_time, m.end_time))
        acc, kv.2 ≠ [] := by
  intro ms
  induction ms with
  | nil => intro acc h; exact h
  | cons m rest ih =>
    intro acc h
    exact ih _ (addPair_values_ne h)

theorem fold_keys_occurs (d : String) :
    ∀ (ms : List Meeting) (acc : List (String × List (ℤ × ℤ))),
      d ∈ ((ms.foldl (fun a m => addPair a m.day (m.start_time, m.end_time))
        acc)).map Prod.fst ↔
      d ∈ acc.map Prod.fst ∨ ∃ m ∈ ms, m.day = d := by
  intro ms
  induction ms with
  | nil => intro acc; simp
  | cons m rest ih =>
    intro acc
    simp only [List.foldl_cons]
    rw [ih, addPair_keys_occurs]
    constructor
    · rintro ((h | h) | ⟨m2, hm2, h⟩)
      · exact Or.inl h
      · exact Or.inr ⟨m, List.mem_cons_self _ _, h.symm⟩
      · exact Or.inr ⟨m2, List.mem_cons_of_mem _ hm2, h⟩
    · rintro (h | ⟨m2, hm2, h⟩)
      · exact Or.inl (Or.inl h)
      · rcases List.mem_cons.mp hm2 with hm2 | hm2
        · subst hm2; exact Or.inl (Or.inr h.symm)
        · exact Or.inr ⟨m2, hm2, h⟩

theorem entry_eq_lookup {d : String} {ps : List (ℤ × ℤ)} :
    ∀ {acc : List (String × List (ℤ × ℤ))}, (acc.map Prod.fst).Nodup →
      (d, ps) ∈ acc → ps = lookupDay d acc := by
  intro acc
  induction acc with
  | nil => intro _ h; exact absurd h (List.not_mem_nil _)
  | cons kv rest ih =>
    rcases kv with ⟨k, qs⟩
    intro hnd hmem
    simp only [List.map_cons, List.nodup_cons] at hnd
    rcases List.mem_cons.mp hmem with hmem | hmem
    · rcases Prod.mk.injEq .. ▸ hmem with ⟨hk, hps⟩
      subst hk
      rw [lookupDay, if_pos rfl]
      exact hps.symm ▸ rfl
    · have hk : k ≠ d := by
        intro hk
        subst hk
        exact hnd.1 (List.mem_map.mpr ⟨(k, ps), hmem, rfl⟩)
      rw [lookupDay, if_neg hk]
      exact ih hnd.2 hmem

theorem day_meetings_entry {path : List Section} {s : Section} {kv}
    (h : kv ∈ day_meetings path s) :
    kv.2 = meetingsOnDay (allMeetings path s) kv.1 := by
  have hnd : ((day_meetings path s).map Prod.fst).Nodup :=
    fold_keys_nodup (allMeetings path s) [] (by simp)
  rcases kv with ⟨d, ps⟩
  have := entry_eq_lookup hnd h
  rw [this]
  show lookupDay d (day_meetings path s) = _
  unfold day_meetings
  rw [lookupDay_fold]
  simp [lookupDay]

theorem dayScan_eval :
    ∀ (l : List (ℤ × ℤ)),
      List.Chain' (fun a b : ℤ × ℤ => a.2 ≤ b.1) l →
      dayScan (0.75 : ℝ) l = some (
        ((adjacentPairs l).map (fun p =>
          if 0 < p.2.1 - p.1.2 then
            specGapContribution ((p.2.1 - p.1.2 : ℤ) : ℝ) else 0)).sum,
        ((adjacentPairs l).map (fun p =>
          if 0 < p.2.1 - p.1.2 then p.2.1 - p.1.2 else 0)).sum)
  | [], _ => by simp [dayScan, adjacentPairs]
  | [a], _ => by simp [dayScan, adjacentPairs]
  | a :: b :: t, h => by
    have hab : a.2 ≤ b.1 := (List.chain'_cons.mp h).1
    have ih := dayScan_eval (b :: t) (List.chain'_cons.mp h).2
    show dayScan (0.75 : ℝ) ((a.1, a.2) :: (b.1, b.2) :: t) = _
    rw [dayScan]
    rw [if_neg (by omega)]
    rw [show ((b.1, b.2) :: t : List (ℤ × ℤ)) = b :: t by simp]
    rw [ih]
    have hadj : adjacentPairs (a :: b :: t) =
        (a, b) :: adjacentPairs (b :: t) := by
      simp [adjacentPairs]
    rw [hadj]
    simp only [List.map_cons, List.sum_cons]
    by_cases hg : (0 : ℤ) < b.1 - a.2
    · rw [if_pos hg]
      simp only [hg, if_pos]
      unfold specGapContribution adjusted_gap
      norm_num
    · rw [if_neg hg]
      simp only [hg, if_neg, not_false_iff]
      norm_num

theorem day_feasible_pairwise {all : List Meeting} (d : String)
    (hfeas : FeasibleMeetings all) :
    List.Pairwise NoOverlapPair (meetingsOnDay all d) := by
  unfold meetingsOnDay
  rw [List.pairwise_map]
  refine List.Pairwise.imp_of_mem ?_ (hfeas.filter _)
  intro a b ha hb hab
  have ha2 := List.of_mem_filter ha
  have hb2 := List.of_mem_filter hb
  simp only [decide_eq_true_eq] at ha2 hb2
  exact hab (by rw [ha2, hb2])

theorem sorted_pairs_chain {l : List (ℤ × ℤ)}
    (hwf : ∀ p ∈ l, p.1 ≤ p.2)
    (hno : List.Pairwise NoOverlapPair l)
    (hs : List.Sorted pairLE l) :
    List.Chain' (fun a b : ℤ × ℤ => a.2 ≤ b.1) l := by
  refine List.Pairwise.chain' ?_
  have hand := List.Pairwise.and hs hno
  refine List.Pairwise.imp_of_mem ?_ hand
  intro a b ha hb hab
  have hwa := hwf a ha
  have hwb := hwf b hb
  rcases hab with ⟨hle, hno2⟩
  simp only [pairLE] at hle
  simp only [NoOverlapPair] at hno2
  rcases hno2 with h | h
  · exact h
  · rcases hle with h2 | ⟨h2, h3⟩ <;> omega

theorem goDays_eval (dm : List (String × List (ℤ × ℤ)))
    (h : ∀ kv ∈ dm, dayScan (0.75 : ℝ)
      (List.insertionSort pairLE kv.2) =
        some (specDayCost kv.2, specDayGap kv.2))
    (hne : ∀ kv ∈ dm, kv.2 ≠ ([] : List (ℤ × ℤ))) :
    goDays (0.75 : ℝ) dm = some (
      (dm.map (fun kv => specDayCost kv.2)).sum,
      (dm.map (fun kv => specDayGap kv.2)).sum,
      dm.length) := by
  induction dm with
  | nil => simp [goDays]
  | cons kv rest ih =>
    rcases kv with ⟨k, ps⟩
    have h1 := h (k, ps) (List.mem_cons_self _ _)
    have h2 := ih (fun e he => h e (List.mem_cons_of_mem _ he))
      (fun e he => hne e (List.mem_cons_of_mem _ he))
    have hlen : 0 < ps.length :=
      List.length_pos.mpr (hne (k, ps) (List.mem_cons_self _ _))
    simp only [goDays, h1, h2]
    simp [hlen]
    omega

/-- C4: on every feasible path-plus-candidate (well-formed meetings, no
same-day overlap), `calculate_weight` computes exactly the spec formula: for
each day and each chronologically adjacent pair with gap `g > 0` a
contribution `(g + 30 * exp(-((g - 50)^2) / (2 * 15^2)))^0.75`, summed over
all such gaps, plus 15 per distinct day with a meeting; the stats report the
raw gap minutes and the distinct-day count. -/
theorem C4_cost_model (path : List Section) (s : Section)
    (hwf : ∀ m ∈ allMeetings path s, m.start_time ≤ m.end_time)
    (hfeas : FeasibleMeetings (allMeetings path s)) :
    calculate_weight path s (0.75 : ℝ) =
      some (specCost path s,
        ⟨specTotalGap path s, (distinctDays (allMeetings path s)).length⟩) := by
  have hentry : ∀ kv ∈ day_meetings path s, dayScan (0.75 : ℝ)
      (List.insertionSort pairLE kv.2) =
        some (specDayCost kv.2, specDayGap kv.2) := by
    intro kv hkv
    rw [day_meetings_entry hkv]
    have hchain : List.Chain' (fun a b : ℤ × ℤ => a.2 ≤ b.1)
        (List.insertionSort pairLE
          (meetingsOnDay (allMeetings path s) kv.1)) := by
      apply sorted_pairs_chain
      · intro p hp
        have hp2 : p ∈ meetingsOnDay (allMeetings path s) kv.1 :=
          (List.perm_insertionSort pairLE _).subset hp
        unfold meetingsOnDay at hp2
        rcases List.mem_map.mp hp2 with ⟨m, hm, rfl⟩
        exact hwf m (List.mem_of_mem_filter hm)
      · exact ((List.perm_insertionSort pairLE _).pairwise_iff
          (fun hab => Or.symm hab)).mpr (day_feasible_pairwise kv.1 hfeas)
      · exact List.sorted_insertionSort pairLE _
    rw [dayScan_eval _ hchain]
    rfl
  have hne : ∀ kv ∈ day_meetings path s, kv.2 ≠ ([] : List (ℤ × ℤ)) :=
    fold_values_ne _ [] (by simp)
  have hgo := goDays_eval (day_meetings path s) hentry hne
  have hmapc : (day_meetings path s).map (fun kv => specDayCost kv.2) =
      ((day_meetings path s).map Prod.fst).map (fun d =>
        specDayCost (meetingsOnDay (allMeetings path s) d)) := by
    rw [List.map_map]
    apply List.map_congr_left
    intro kv hkv
    rw [day_meetings_entry hkv]
    rfl
  have hmapg : (day_meetings path s).map (fun kv => specDayGap kv.2) =
      ((day_meetings path s).map Prod.fst).map (fun d =>
        specDayGap (meetingsOnDay (allMeetings path s) d)) := by
    rw [List.map_map]
    apply List.map_congr_left
    intro kv hkv
    rw [day_meetings_entry hkv]
    rfl
  have hperm : List.Perm ((day_meetings path s).map Prod.fst)
      (distinctDays (allMeetings path s)) := by
    refine (List.perm_ext_iff_of_nodup
      (fold_keys_nodup (allMeetings path s) [] (by simp))
      (List.nodup_dedup _)).mpr ?_
    intro d
    rw [List.mem_dedup, fold_keys_occurs d (allMeetings path s) []]
    simp [List.mem_map]
  have hsumc : ((day_meetings path s).map (fun kv => specDayCost kv.2)).sum =
      ((distinctDays (allMeetings path s)).map (fun d =>
        specDayCost (meetingsOnDay (allMeetings path s) d))).sum := by
    rw [hmapc]
    exact (hperm.map _).sum_eq
  have hsumg : ((day_meetings path s).map (fun kv => specDayGap kv.2)).sum =
      ((distinctDays (allMeetings path s)).map (fun d =>
        specDayGap (meetingsOnDay (allMeetings path s) d))).sum := by
    rw [hmapg]
    exact (hperm.map _).sum_eq
  have hlen : (day_meetings path s).length =
      (distinctDays (allMeetings path s)).length := by
    have h2 := hperm.length_eq
    rwa [List.length_map] at h2
  unfold calculate_weight
  rw [hgo, hsumc, hsumg, hlen]
  refine congrArg some ?_
  refine Prod.ext ?_ rfl
  show _ + ((distinctDays (allMeetings path s)).length : ℝ) * DAY_WEIGHT = _
  unfold specCost DAY_WEIGHT
  ring

/-- C1: every schedule returned by `optimize_schedule` is conflict-free: two
meetings of two distinct sections of a returned schedule that fall on the
same day have non-overlapping time intervals, where touching boundaries
(one meeting ending exactly when the next starts) are allowed. -/
theorem C1_conflict_free (courses : List Course) (top : ℕ)
    (gap_exponent : ℝ) (r : Schedule ℝ)
    (hr : r ∈ optimize_schedule courses top gap_exponent)
    (i j : ℕ) (hij : i ≠ j) (si sj : Section) (mi mj : Meeting)
    (hsi : r.sections[i]? = some si) (hsj : r.sections[j]? = some sj)
    (hmi : mi ∈ si.meetings) (hmj : mj ∈ sj.meetings)
    (hday : mi.day = mj.day) :
    mi.end_time ≤ mj.start_time ∨ mj.end_time ≤ mi.start_time := by
  by_cases hn : courses.length = 0
  · rw [List.length_eq_zero.mp hn] at hr
    exact absurd hr (List.not_mem_nil r)
  · rw [optimize_schedule_eq] at hr
    rcases mem_optimize_core (60 : ℝ) (wReal gap_exponent) courses top r hr
      with ⟨e, he, hee⟩
    have hok := recordedResults_EntryOK (60 : ℝ) (wReal gap_exponent) courses
      e he
    rcases hok.2.2.2 (by omega) with ⟨pre, last, hsec, hw⟩
    have hpw := meetings_pairwise (g := gap_exponent) hw
    have hflat : allMeetings pre last =
        (r.sections.map Section.meetings).flatten := by
      rw [allMeetings_flatten, ← hsec, hee]
    rw [hflat] at hpw
    have hsplit := (List.pairwise_flatten.mp hpw).2
    rcases List.getElem?_eq_some_iff.mp hsi with ⟨hilt, hieq⟩
    rcases List.getElem?_eq_some_iff.mp hsj with ⟨hjlt, hjeq⟩
    have hget := List.pairwise_iff_getElem.mp hsplit
    rcases Nat.lt_or_ge i j with hlt | hge
    · have happ := hget i j (by simpa using hilt) (by simpa using hjlt) hlt
      have := happ mi (by rw [List.getElem_map, hieq]; exact hmi)
        mj (by rw [List.getElem_map, hjeq]; exact hmj) hday
      exact this
    · have hlt2 : j < i := by omega
      have happ := hget j i (by simpa using hjlt) (by simpa using hilt) hlt2
      have := happ mj (by rw [List.getElem_map, hjeq]; exact hmj)
        mi (by rw [List.getElem_map, hieq]; exact hmi) hday.symm
      exact this.symm

/-- C3: `optimize_schedule` returns exactly
`min(top, number of complete states recorded)` schedules; costs are sorted
in non-decreasing order; equal costs are ordered by the strictly increasing
record counter (completion order); the Python default for `top` is 1. -/
theorem C3_result_count_and_order (courses : List Course) (top : ℕ)
    (gap_exponent : ℝ) :
    (optimize_schedule courses top gap_exponent).length =
      min top (numCompleteStates (60 : ℝ) (wReal gap_exponent) courses) ∧
    List.Sorted (· ≤ ·)
      ((optimize_schedule courses top gap_exponent).map Schedule.cost) ∧
    List.Pairwise (fun a b => a.1 < b.1 ∨ (a.1 = b.1 ∧ a.2.1 < b.2.1))
      ((List.insertionSort resultLE
        (recordedResults (60 : ℝ) (wReal gap_exponent) courses)).take top) ∧
    optimize_schedule courses top gap_exponent =
      ((List.insertionSort resultLE
        (recordedResults (60 : ℝ) (wReal gap_exponent) courses)).take
          top).map (fun r => r.2.2) ∧
    optimize_schedule_defaults courses =
      optimize_schedule courses 1 (0.75 : ℝ) := by
  have heq : optimize_schedule courses top gap_exponent =
      ((List.insertionSort resultLE
        (recordedResults (60 : ℝ) (wReal gap_exponent) courses)).take
          top).map (fun r => r.2.2) := by
    rw [optimize_schedule_eq, optimize_core_eq]
  have hsub : ((List.insertionSort resultLE
      (recordedResults (60 : ℝ) (wReal gap_exponent) courses)).take top).Sublist
      (List.insertionSort resultLE
        (recordedResults (60 : ℝ) (wReal gap_exponent) courses)) :=
    List.take_sublist _ _
  have hsorted : List.Pairwise resultLE
      ((List.insertionSort resultLE
        (recordedResults (60 : ℝ) (wReal gap_exponent) courses)).take top) :=
    List.Pairwise.sublist hsub
      (List.sorted_insertionSort resultLE
        (recordedResults (60 : ℝ) (wReal gap_exponent) courses))
  have hmem : ∀ e ∈ (List.insertionSort resultLE
      (recordedResults (60 : ℝ) (wReal gap_exponent) courses)).take top,
      EntryOK courses (wReal gap_exponent) e := by
    intro e he
    exact recordedResults_EntryOK (60 : ℝ) (wReal gap_exponent) courses e
      ((List.perm_insertionSort resultLE _).subset (hsub.subset he))
  refine ⟨?_, ?_, ?_, heq, rfl⟩
  · rw [heq, List.length_map, List.length_take,
      (List.perm_insertionSort resultLE _).length_eq]
    rfl
  · rw [heq, List.map_map]
    refine List.pairwise_map.mpr ?_
    refine List.Pairwise.imp_of_mem ?_ hsorted
    intro a b ha hb hab
    have hca := (hmem a ha).1
    have hcb := (hmem b hb).1
    show (a.2.2).cost ≤ (b.2.2).cost
    rw [hca, hcb]
    rcases hab with h | ⟨h, _⟩
    · exact le_of_lt h
    · exact le_of_eq h
  · have hnodup : (((List.insertionSort resultLE
        (recordedResults (60 : ℝ) (wReal gap_exponent) courses)).take
          top).map (fun e => e.2.1)).Nodup := by
      refine List.Nodup.sublist (List.Sublist.map _ hsub) ?_
      rw [List.Perm.nodup_iff
        (List.Perm.map _ (List.perm_insertionSort resultLE _))]
      exact recorded_counters_nodup (60 : ℝ) (wReal gap_exponent) courses
    have hne : List.Pairwise (fun a b : ℝ × ℕ × Schedule ℝ => a.2.1 ≠ b.2.1)
        ((List.insertionSort resultLE
          (recordedResults (60 : ℝ) (wReal gap_exponent) courses)).take top) :=
      List.pairwise_map.mp hnodup
    refine (hsorted.and hne).imp ?_
    intro a b hab
    rcases hab.1 with h | ⟨h, h2⟩
    · exact Or.inl h
    · exact Or.inr ⟨h, lt_of_le_of_ne h2 hab.2⟩

/-- Witness for C4 at the concrete input `{10:00 to 10:50}` plus
`{11:00 to 11:50}` on Monday. -/
theorem C4_cost_model_witness :
    (∀ m ∈ allMeetings [mock_section_1] mock_section_3,
      m.start_time ≤ m.end_time) ∧
    FeasibleMeetings (allMeetings [mock_section_1] mock_section_3) ∧
    calculate_weight [mock_section_1] mock_section_3 (0.75 : ℝ) =
      some (specCost [mock_section_1] mock_section_3,
        ⟨specTotalGap [mock_section_1] mock_section_3,
          (distinctDays (allMeetings [mock_section_1]
            mock_section_3)).length⟩) := by
  have h1 : ∀ m ∈ allMeetings [mock_section_1] mock_section_3,
      m.start_time ≤ m.end_time := by decide
  have h2 : FeasibleMeetings (allMeetings [mock_section_1] mock_section_3) :=
    by decide
  exact ⟨h1, h2, C4_cost_model [mock_section_1] mock_section_3 h1 h2⟩

theorem exp_bound_950 : (2500 : ℝ) / 3031 ≤ Real.exp (-(9 / 50)) := by
  have h1 : |(9 / 50 : ℝ)| ≤ 1 := by rw [abs_of_nonneg] <;> norm_num
  have h2 := Real.abs_exp_sub_one_sub_id_le h1
  have h3 : Real.exp (9 / 50 : ℝ) ≤ 3031 / 2500 := by
    have h4 := (abs_le.mp h2).2
    norm_num at h4 ⊢
    linarith
  rw [Real.exp_neg]
  rw [show (2500 : ℝ) / 3031 = ((3031 : ℝ) / 2500)⁻¹ by norm_num]
  exact inv_anti₀ (Real.exp_pos _) h3

theorem exp_half_lt : Real.exp (-(1 / 2 : ℝ)) < 607 / 1000 := by
  have hsq : Real.exp (-(1 / 2 : ℝ)) * Real.exp (-(1 / 2 : ℝ)) =
      Real.exp (-1 : ℝ) := by
    rw [← Real.exp_add]
    norm_num
  have h1 : Real.exp (-1 : ℝ) = (Real.exp 1)⁻¹ := Real.exp_neg 1
  have h2 : (2.7182818283 : ℝ) < Real.exp 1 := Real.exp_one_gt_d9
  have h3 : Real.exp (-1 : ℝ) < 0.36788 := by
    rw [h1]
    have h5 : ((2.7182818283 : ℝ))⁻¹ < 0.36788 := by norm_num
    have h6 : (Real.exp 1)⁻¹ < ((2.7182818283 : ℝ))⁻¹ := by
      apply inv_strictAnti₀ (by norm_num) h2
    linarith
  have hpos := Real.exp_pos (-(1 / 2 : ℝ))
  nlinarith [hsq, h3, hpos]

theorem adjusted_gap_65_lt_59 :
    adjusted_gap 65 30 50 15 < adjusted_gap 59 30 50 15 := by
  unfold adjusted_gap
  rw [show -(((59 : ℝ) - 50) ^ 2) / (2 * 15 ^ 2) = -(9 / 50) by norm_num]
  rw [show -(((65 : ℝ) - 50) ^ 2) / (2 * 15 ^ 2) = -(1 / 2) by norm_num]
  have h1 := exp_bound_950
  have h2 := exp_half_lt
  nlinarith

theorem gapContribution_65_lt_59 : gapContribution 65 < gapContribution 59 :=
  Real.rpow_lt_rpow (adjusted_gap_nonneg (by norm_num))
    adjusted_gap_65_lt_59 (by norm_num)

theorem cw_c8A : calculate_weight [c8_path_section] c8_section_A (0.75 : ℝ) =
    some (costPair 59, ⟨59, 1⟩) := by
  simp [calculate_weight, day_meetings, allMeetings, c8_path_section,
    c8_section_A, addPair, goDays, dayScan, List.insertionSort,
    List.orderedInsert, pairLE, DAY_WEIGHT, costPair, gapContribution]

theorem cw_c8B : calculate_weight [c8_path_section] c8_section_B (0.75 : ℝ) =
    some (costPair 65, ⟨65, 1⟩) := by
  simp [calculate_weight, day_meetings, allMeetings, c8_path_section,
    c8_section_B, addPair, goDays, dayScan, List.insertionSort,
    List.orderedInsert, pairLE, DAY_WEIGHT, costPair, gapContribution]

/-- C8 counterexample: against a fixed path ending at 8:50 on Monday,
candidate A (gap 59 minutes) receives a strictly LARGER marginal cost from
`calculate_weight` than candidate B (gap 65 minutes), although 59 < 65 and
both gaps lie in the mid-length region around the 50-minute midpoint
(65 = midpoint + range).  The per-gap contribution is likewise not monotone:
`adjusted_gap(59)^0.75 > adjusted_gap(65)^0.75`. -/
theorem C8_counterexample :
    calculate_weight [c8_path_section] c8_section_A (0.75 : ℝ) =
      some (costPair 59, ⟨59, 1⟩) ∧
    calculate_weight [c8_path_section] c8_section_B (0.75 : ℝ) =
      some (costPair 65, ⟨65, 1⟩) ∧
    (59 : ℝ) < 65 ∧ (65 : ℝ) ≤ 50 + 15 ∧
    costPair 65 < costPair 59 ∧
    gapContribution 65 < gapContribution 59 := by
  refine ⟨cw_c8A, cw_c8B, by norm_num, by norm_num, ?_,
    gapContribution_65_lt_59⟩
  unfold costPair
  have := gapContribution_65_lt_59
  linarith

/-- C8 amended: the per-gap cost contribution `adjusted_gap(g)^0.75` is
strictly monotone in the gap when the larger gap is at most the 50-minute
midpoint, or when the gaps differ by at least the penalty multiplier 30.
(As stated for arbitrary mid-length gaps the claim is false: at gaps 59 and
65 the contribution decreases; see the counterexample.) -/
theorem C8_amended_monotonicity (a b : ℝ) (ha : 0 ≤ a) (hab : a < b)
    (h : b ≤ 50 ∨ a + 30 ≤ b) : gapContribution a < gapContribution b := by
  rcases h with h | h
  · exact gapContribution_mono_le_mid ha hab h
  · exact gapContribution_lt_far ha h

/-- Witness for the amended C8 at gaps 10 and 40. -/
theorem C8_amended_monotonicity_witness :
    (0 : ℝ) ≤ 10 ∧ (10 : ℝ) < 40 ∧ ((40 : ℝ) ≤ 50 ∨ (10 : ℝ) + 30 ≤ 40) ∧
    gapContribution 10 < gapContribution 40 :=
  ⟨by norm_num, by norm_num, Or.inl (by norm_num),
    C8_amended_monotonicity 10 40 (by norm_num) (by norm_num)
      (Or.inl (by norm_num))⟩

/-- C7 counterexample: a request with `top = 0` passes the boundary
validation, the engine is invoked, and the endpoint answers with the (empty)
engine result rather than a validation error. -/
theorem C7_counterexample :
    scheduleRequestTopValid 0 = true ∧
    generate_schedules_endpoint singleCourses ["SOLO"] 0 =
      ApiResponse.ok (optimize_schedule singleCourses ((0 : ℤ)).toNat
        (0.75 : ℝ)) ∧
    generate_schedules_endpoint singleCourses ["SOLO"] 0 =
      ApiResponse.ok [] := by
  refine ⟨rfl, ?_, ?_⟩
  · unfold generate_schedules_endpoint
    rw [if_neg (by norm_num)]
  · unfold generate_schedules_endpoint
    rw [if_neg (by norm_num)]
    rw [show ((0 : ℤ)).toNat = 0 from rfl, single_search 0]
    rfl

/-- C7 amended: an invalid `top` (≤ 0) is NOT rejected at the API boundary:
`ScheduleRequest` declares no bound on `top`, so validation accepts it, the
engine runs, and (for requests within the 10-course limit) the endpoint
returns the empty schedule list because `heapq.nsmallest` with non-positive
`n` selects nothing. -/
theorem C7_amended_no_validation (hydrated : List Course)
    (ids : List String) (top : ℤ) (hids : ids.length ≤ 10) (htop : top ≤ 0) :
    scheduleRequestTopValid top = true ∧
    generate_schedules_endpoint hydrated ids top =
      ApiResponse.ok (optimize_schedule hydrated top.toNat (0.75 : ℝ)) ∧
    optimize_schedule hydrated top.toNat (0.75 : ℝ) = [] := by
  refine ⟨rfl, ?_, ?_⟩
  · unfold generate_schedules_endpoint
    rw [if_neg (by omega)]
  · rw [Int.toNat_of_nonpos htop, optimize_schedule_eq, optimize_core_eq]
    simp

/-- Witness for the amended C7 at a concrete request with `top = -3`. -/
theorem C7_amended_no_validation_witness :
    scheduleRequestTopValid (-3) = true ∧
    generate_schedules_endpoint singleCourses ["SOLO"] (-3) =
      ApiResponse.ok (optimize_schedule singleCourses ((-3 : ℤ)).toNat
        (0.75 : ℝ)) ∧
    optimize_schedule singleCourses ((-3 : ℤ)).toNat (0.75 : ℝ) = [] :=
  C7_amended_no_validation singleCourses ["SOLO"] (-3) (by norm_num)
    (by norm_num)

/-- C5: on the concrete two-course input (Course1: Monday 10:00 to 10:50 and
2:00pm to 2:50pm; Course2: Monday 11:00 to 11:50 and 4:00pm to 4:50pm),
searching with `top = 2` returns first the `{10:00, 11:00}` combination with
total gap 10 minutes, ranked strictly before the `{2:00, 4:00}` combination
with total gap 70 minutes. -/
theorem C5_concrete_scenario :
    optimize_schedule mockCourses 2 (0.75 : ℝ) = [R1011, R1416] ∧
    R1011.sections = [mock_section_1, mock_section_3] ∧
    R1416.sections = [mock_section_2, mock_section_4] ∧
    R1011.total_gap_minutes = 10 ∧
    R1416.total_gap_minutes = 70 ∧
    R1011.cost < R1416.cost := by
  refine ⟨?_, rfl, rfl, rfl, rfl, ?_⟩
  · rw [mock_search 2]
    rfl
  · exact costPair_lt_far (by norm_num) (by norm_num)

/-- Witness for C1 at the concrete scenario: the two sections of the best
returned schedule meet Monday 10:00 to 10:50 and 11:00 to 11:50, and indeed
do not overlap. -/
theorem C1_conflict_free_witness :
    R1011 ∈ optimize_schedule mockCourses 2 (0.75 : ℝ) ∧
    ((⟨"M", 600, 650⟩ : Meeting).end_time ≤
        (⟨"M", 660, 710⟩ : Meeting).start_time ∨
      (⟨"M", 660, 710⟩ : Meeting).end_time ≤
        (⟨"M", 600, 650⟩ : Meeting).start_time) := by
  have hr : R1011 ∈ optimize_schedule mockCourses 2 (0.75 : ℝ) := by
    rw [mock_search 2]
    simp
  exact ⟨hr, C1_conflict_free mockCourses 2 (0.75 : ℝ) R1011 hr 0 1
    (by decide) mock_section_1 mock_section_3 ⟨"M", 600, 650⟩
    ⟨"M", 660, 710⟩ rfl rfl (by simp [mock_section_1])
    (by simp [mock_section_3]) rfl⟩

/-- Witness for C6: a one-course input whose course has an empty candidate
list yields the empty result list. -/
theorem C6_degenerate_inputs_witness :
    (([emptySecCourse] : List Course) = [] ∨
      ∃ c ∈ ([emptySecCourse] : List Course), c.sections = []) ∧
    optimize_schedule [emptySecCourse] 1 (0.75 : ℝ) = [] := by
  have h : ([emptySecCourse] : List Course) = [] ∨
      ∃ c ∈ ([emptySecCourse] : List Course), c.sections = [] :=
    Or.inr ⟨emptySecCourse, by simp, rfl⟩
  exact ⟨h, C6_degenerate_inputs [emptySecCourse] 1 (0.75 : ℝ) h⟩

/-- Witness for C9 at the one-course input: the frontier is drained within
the fuel bound, and the very first iteration strictly decreases the
potential. -/
theorem C9_termination_witness :
    (iterateLoop (60 : ℝ) (wReal (0.75 : ℝ)) singleCourses
        (searchFuel singleCourses) (initLoop ℝ)).queue = [] ∧
    potential singleCourses (iterateLoop (60 : ℝ) (wReal (0.75 : ℝ))
        singleCourses (0 + 1) (initLoop ℝ)).queue <
      potential singleCourses (iterateLoop (60 : ℝ) (wReal (0.75 : ℝ))
        singleCourses 0 (initLoop ℝ)).queue := by
  refine ⟨(C9_termination singleCourses (0.75 : ℝ)).1, ?_⟩
  refine (C9_termination singleCourses (0.75 : ℝ)).2.2 0 ?_
  simp [iterateLoop, initLoop]

/-- Witness for C10 at the one-course input: the returned schedule has one
section per course, and the frontier state after one iteration satisfies the
path-length invariant. -/
theorem C10_one_section_per_course_witness :
    singleR ∈ optimize_schedule singleCourses 1 (0.75 : ℝ) ∧
    singleR.sections.length = singleCourses.length ∧
    singleS1.path.length = singleS1.course_index := by
  have hr : singleR ∈ optimize_schedule singleCourses 1 (0.75 : ℝ) := by
    rw [single_search 1]
    simp
  have hs : singleS1 ∈ (iterateLoop (60 : ℝ) (wReal (0.75 : ℝ))
      singleCourses 1 (initLoop ℝ)).queue := by
    rw [show (1 : ℕ) = 0 + 1 from rfl, iterateLoop_succ_inner, single_step1]
    simp [iterateLoop, singleLS1]
  exact ⟨hr,
    ((C10_one_section_per_course singleCourses 1 (0.75 : ℝ)).2 singleR hr).1,
    ((C10_one_section_per_course singleCourses 1 (0.75 : ℝ)).1 1 singleS1
      hs).1⟩

section C2Fold

variable [LinearOrder K] [Add K] (slack : K)
variable (w : List Section → Section → Option (K × Stats))

/-- Case analysis of one `expandChild` call: the candidate is rejected
(conflict or pruned), blocked by the visited set, or pushed. -/
theorem expandChild_split (path : List Section) (i : ℕ) (best : WithTop K)
    (acc : ℕ × List (SearchState K) × List (ℕ × List String)) (s : Section) :
    ((w path s = none ∨ ∃ c st, w path s = some (c, st) ∧
        best + (slack : WithTop K) < (c : WithTop K)) ∧
      (expandChild slack w path i best acc s).2.1 = acc.2.1 ∧
      (expandChild slack w path i best acc s).2.2 = acc.2.2) ∨
    (stateId (i + 1) (path ++ [s]) ∈ acc.2.2 ∧
      (expandChild slack w path i best acc s).2.1 = acc.2.1 ∧
      (expandChild slack w path i best acc s).2.2 = acc.2.2) ∨
    (∃ c st, w path s = some (c, st) ∧
      ¬ best + (slack : WithTop K) < (c : WithTop K) ∧
      stateId (i + 1) (path ++ [s]) ∉ acc.2.2 ∧
      (expandChild slack w path i best acc s).2.1 =
        pushState ⟨c, acc.1, path ++ [s], i + 1, st⟩ acc.2.1 ∧
      (expandChild slack w path i best acc s).2.2 =
        acc.2.2 ++ [stateId (i + 1) (path ++ [s])]) := by
  rcases hw : w path s with _ | ⟨c, st⟩
  · refine Or.inl ⟨Or.inl rfl, ?_, ?_⟩ <;> simp [expandChild, hw]
  · by_cases hp : best + (slack : WithTop K) < (c : WithTop K)
    · refine Or.inl ⟨Or.inr ⟨c, st, rfl, hp⟩, ?_, ?_⟩ <;>
        simp [expandChild, hw, hp]
    · by_cases hv : stateId (i + 1) (path ++ [s]) ∈ acc.2.2
      · refine Or.inr (Or.inl ⟨hv, ?_, ?_⟩) <;>
          simp [expandChild, hw, hp, hv]
      · refine Or.inr (Or.inr ⟨c, st, rfl, hp, hv, ?_, ?_⟩) <;>
          simp [expandChild, hw, hp, hv]

/-- The visited set after one expansion extends the old one with ids of
children of the expanded state. -/
theorem expand_fold_vis_shape (path : List Section) (i : ℕ) (best : WithTop K)
    (secs : List Section)
    (acc : ℕ × List (SearchState K) × List (ℕ × List String)) :
    ∃ extra, (secs.foldl (expandChild slack w path i best) acc).2.2 =
      acc.2.2 ++ extra ∧
      ∀ x ∈ extra, ∃ s ∈ secs, x = stateId (i + 1) (path ++ [s]) := by
  induction secs generalizing acc with
  | nil => exact ⟨[], by simp, by simp⟩
  | cons s ss ih =>
    simp only [List.foldl_cons]
    rcases ih (expandChild slack w path i best acc s) with ⟨extra, he, hq⟩
    rcases expandChild_split slack w path i best acc s with
      ⟨_, _, hc⟩ | ⟨_, _, hc⟩ | ⟨c, st, _, _, _, _, hc⟩
    · refine ⟨extra, by rw [he, hc], ?_⟩
      intro x hx
      rcases hq x hx with ⟨t, ht, hxt⟩
      exact ⟨t, List.mem_cons_of_mem _ ht, hxt⟩
    · refine ⟨extra, by rw [he, hc], ?_⟩
      intro x hx
      rcases hq x hx with ⟨t, ht, hxt⟩
      exact ⟨t, List.mem_cons_of_mem _ ht, hxt⟩
    · refine ⟨stateId (i + 1) (path ++ [s]) :: extra, ?_, ?_⟩
      · rw [he, hc, List.append_assoc]
        rfl
      · intro x hx
        rcases List.mem_cons.mp hx with rfl | hx
        · exact ⟨s, List.mem_cons_self _ _, rfl⟩
        · rcases hq x hx with ⟨t, ht, hxt⟩
          exact ⟨t, List.mem_cons_of_mem _ ht, hxt⟩

/-- The visited set only grows during an expansion. -/
theorem expand_fold_vis_mono (path : List Section) (i : ℕ) (best : WithTop K)
    (secs : List Section)
    (acc : ℕ × List (SearchState K) × List (ℕ × List String)) :
    ∀ x ∈ acc.2.2, x ∈ (secs.foldl (expandChild slack w path i best) acc).2.2
    := by
  intro x hx
  rcases expand_fold_vis_shape slack w path i best secs acc with ⟨extra, he, _⟩
  rw [he]
  exact List.mem_append.mpr (Or.inl hx)

/-- Expansion never removes a state from the frontier. -/
theorem expand_fold_queue_sub (path : List Section) (i : ℕ) (best : WithTop K)
    (secs : List Section)
    (acc : ℕ × List (SearchState K) × List (ℕ × List String)) :
    ∀ x ∈ acc.2.1, x ∈ (secs.foldl (expandChild slack w path i best) acc).2.1
    := by
  induction secs generalizing acc with
  | nil => intro x hx; exact hx
  | cons s ss ih =>
    intro x hx
    simp only [List.foldl_cons]
    refine ih (expandChild slack w path i best acc s) x ?_
    rcases expandChild_split slack w path i best acc s with
      ⟨_, hc, _⟩ | ⟨_, hc, _⟩ | ⟨c, st, _, _, _, hc, _⟩
    · rw [hc]; exact hx
    · rw [hc]; exact hx
    · rw [hc]; exact mem_pushState.mpr (Or.inr hx)

/-- Every state in the frontier after an expansion is an old state or has its
id in the new visited set. -/
theorem expand_fold_queue_vis (path : List Section) (i : ℕ) (best : WithTop K)
    (secs : List Section)
    (acc : ℕ × List (SearchState K) × List (ℕ × List String)) :
    ∀ x ∈ (secs.foldl (expandChild slack w path i best) acc).2.1,
      x ∈ acc.2.1 ∨ stateId x.course_index x.path ∈
        (secs.foldl (expandChild slack w path i best) acc).2.2 := by
  induction secs generalizing acc with
  | nil => intro x hx; exact Or.inl hx
  | cons s ss ih =>
    intro x hx
    simp only [List.foldl_cons] at hx ⊢
    rcases ih (expandChild slack w path i best acc s) x hx with h | h
    · rcases expandChild_split slack w path i best acc s with
        ⟨_, hc, _⟩ | ⟨_, hc, _⟩ | ⟨c, st, _, _, _, hc, hc2⟩
      · rw [hc] at h; exact Or.inl h
      · rw [hc] at h; exact Or.inl h
      · rw [hc] at h
        rcases mem_pushState.mp h with rfl | h
        · refine Or.inr ?_
          refine expand_fold_vis_mono slack w path i best ss _ _ ?_
          rw [hc2]
          exact List.mem_append.mpr (Or.inr (List.mem_singleton.mpr rfl))
        · exact Or.inl h
    · exact Or.inr h

/-- If a candidate section survives the weight and pruning checks, then after
the expansion either its child id was already visited before, or a state with
exactly that child path is on the frontier (section ids within the course are
assumed to identify its sections). -/
theorem expand_fold_push (path : List Section) (i : ℕ) (best : WithTop K)
    (secs : List Section)
    (acc : ℕ × List (SearchState K) × List (ℕ × List String)) (s : Section)
    (hs : s ∈ secs)
    (hinj : ∀ t ∈ secs, t.section_id = s.section_id → t = s)
    {c : K} {st : Stats} (hw : w path s = some (c, st))
    (hnp : ¬ best + (slack : WithTop K) < (c : WithTop K)) :
    stateId (i + 1) (path ++ [s]) ∈ acc.2.2 ∨
      ∃ x ∈ (secs.foldl (expandChild slack w path i best) acc).2.1,
        x.path = path ++ [s] ∧ x.course_index = i + 1 := by
  induction secs generalizing acc with
  | nil => cases hs
  | cons t ts ih =>
    simp only [List.foldl_cons]
    by_cases hts : t = s
    · subst hts
      rcases expandChild_split slack w path i best acc t with
        ⟨hrej, _, _⟩ | ⟨hvis, _, hc2⟩ | ⟨c2, st2, _, _, _, hc, _⟩
      · rcases hrej with hn | ⟨c2, st2, hsome, hprune⟩
        · rw [hw] at hn; cases hn
        · rw [hw] at hsome
          rcases Option.some_inj.mp hsome with h2
          rw [Prod.mk.injEq] at h2
          exact absurd (h2.1 ▸ hprune) hnp
      · exact Or.inl hvis
      · refine Or.inr ?_
        refine ⟨⟨c2, acc.1, path ++ [t], i + 1, st2⟩, ?_, rfl, rfl⟩
        refine expand_fold_queue_sub slack w path i best ts _ _ ?_
        rw [hc]
        exact mem_pushState.mpr (Or.inl rfl)
    · have hs2 : s ∈ ts := by
        rcases List.mem_cons.mp hs with h | h
        · exact absurd h.symm hts
        · exact h
      have hinj2 : ∀ u ∈ ts, u.section_id = s.section_id → u = s := by
        intro u hu
        exact hinj u (List.mem_cons_of_mem _ hu)
      rcases ih (expandChild slack w path i best acc t) hs2 hinj2 with h | h
      · rcases expandChild_split slack w path i best acc t with
          ⟨_, _, hc2⟩ | ⟨_, _, hc2⟩ | ⟨c2, st2, _, _, _, _, hc2⟩
        · rw [hc2] at h; exact Or.inl h
        · rw [hc2] at h; exact Or.inl h
        · rw [hc2] at h
          rcases List.mem_append.mp h with h | h
          · exact Or.inl h
          · exfalso
            have hid : stateId (i + 1) (path ++ [s]) =
                stateId (i + 1) (path ++ [t]) := List.mem_singleton.mp h
            have hmap : (path ++ [s]).map Section.section_id =
                (path ++ [t]).map Section.section_id :=
              (Prod.mk.injEq _ _ _ _).mp hid |>.2
            rw [List.map_append, List.map_append] at hmap
            have hlast := List.append_inj_right hmap rfl
            have hst : t.section_id = s.section_id := by
              simpa using hlast.symm
            exact hts (hinj t (List.mem_cons_self _ _) hst)
      · exact Or.inr h

end C2Fold

/-- The weight of a combination with its last section split off is the weight
`calculate_weight` computes for that step. -/
theorem comboWeight_concat (p : List Section) (s : Section) (g : ℝ) :
    comboWeight (p ++ [s]) g = calculate_weight p s g := by
  unfold comboWeight
  rw [List.getLast?_concat, List.dropLast_concat]

theorem foldr_min_le {l : List (WithTop ℝ)} {x : WithTop ℝ} (hx : x ∈ l) :
    l.foldr min ⊤ ≤ x := by
  induction l with
  | nil => cases hx
  | cons y ys ih =>
    rcases List.mem_cons.mp hx with rfl | hx
    · exact min_le_left _ _
    · exact le_trans (min_le_right _ _) (ih hx)

theorem mem_allCombos {courses : List Course} {p : List Section}
    (h : isCombo courses p) : p ∈ allCombos courses := by
  induction courses generalizing p with
  | nil =>
    have hp : p = [] := List.length_eq_zero.mp h.1
    subst hp
    simp [allCombos]
  | cons c cs ih =>
    rcases p with _ | ⟨s, p2⟩
    · exact absurd h.1 (by simp)
    · rcases h.2 0 (by simp) with ⟨sec, c2, h1, h2, h3⟩
      have hsec : sec = s := by
        simp only [List.getElem?_cons_zero, Option.some_inj] at h1
        exact h1.symm
      have hc2 : c2 = c := by
        simp only [List.getElem?_cons_zero, Option.some_inj] at h2
        exact h2.symm
      rw [hsec, hc2] at h3
      have hp2 : isCombo cs p2 := by
        refine ⟨by simpa using h.1, ?_⟩
        intro i hi
        rcases h.2 (i + 1) (by simpa using Nat.succ_lt_succ hi) with
          ⟨sec2, c3, e1, e2, e3⟩
        exact ⟨sec2, c3, by simpa using e1, by simpa using e2, e3⟩
      unfold allCombos
      refine List.mem_flatten.mpr
        ⟨(allCombos cs).map (fun q => s :: q), ?_, ?_⟩
      · exact List.mem_map_of_mem _ h3
      · exact List.mem_map_of_mem _ (ih hp2)

/-- The search optimum is a lower bound for the cost of every complete
combination. -/
theorem OPT_le (courses : List Course) (g : ℝ) {p : List Section}
    (h : isCombo courses p) : OPT courses g ≤ comboCost p g :=
  foldr_min_le (List.mem_map_of_mem _ (mem_allCombos h))

theorem isCombo_pathOK {courses : List Course} {p : List Section}
    (h : isCombo courses p) : pathOK courses p := by
  intro i hi
  exact h.2 i (by rw [← h.1]; exact hi)

theorem pathOK_take {courses : List Course} {p : List Section}
    (h : pathOK courses p) (m : ℕ) : pathOK courses (p.take m) := by
  intro i hi
  rw [List.length_take] at hi
  rcases h i (by omega) with ⟨sec, c, h1, h2, h3⟩
  refine ⟨sec, c, ?_, h2, h3⟩
  rw [List.getElem?_take, if_pos (show i < m by omega)]
  exact h1

/-- Appending one candidate section of the next course to a valid path keeps
it valid. -/
theorem pathOK_concat {courses : List Course} {p : List Section} {s : Section}
    (h : pathOK courses p) {c : Course}
    (hc : courses[p.length]? = some c) (hs : s ∈ c.sections) :
    pathOK courses (p ++ [s]) := by
  intro k hk
  rw [List.length_append, List.length_singleton] at hk
  by_cases hkp : k < p.length
  · rcases h k hkp with ⟨sec, c2, e1, e2, e3⟩
    refine ⟨sec, c2, ?_, e2, e3⟩
    rw [List.getElem?_append_left hkp]
    exact e1
  · have hke : k = p.length := by omega
    subst hke
    exact ⟨s, c, List.getElem?_concat_length _ _, hc, hs⟩

/-- Two valid paths of equal length with the same section ids are equal, when
each course lists its candidate sections under distinct ids. -/
theorem path_eq_of_ids {courses : List Course} {p1 p2 : List Section}
    (hids : ∀ c ∈ courses, (c.sections.map Section.section_id).Nodup)
    (h1 : pathOK courses p1) (h2 : pathOK courses p2)
    (hl : p1.length = p2.length)
    (hm : p1.map Section.section_id = p2.map Section.section_id) :
    p1 = p2 := by
  refine List.ext_getElem hl ?_
  intro i hi1 hi2
  rcases h1 i hi1 with ⟨s1, c1, e1, f1, g1⟩
  rcases h2 i hi2 with ⟨s2, c2, e2, f2, g2⟩
  rw [List.getElem?_eq_getElem hi1, Option.some_inj] at e1
  rw [List.getElem?_eq_getElem hi2, Option.some_inj] at e2
  have hc : c1 = c2 := by
    rw [f1, Option.some_inj] at f2
    exact f2
  subst hc e1 e2
  have hcmem : c1 ∈ courses := by
    rcases List.getElem?_eq_some_iff.mp f1 with ⟨hilen, hie⟩
    exact hie ▸ List.getElem_mem hilen
  have hid : (p1[i]).section_id = (p2[i]).section_id := by
    have hmi := congrArg (fun l => l[i]?) hm
    simp only [List.getElem?_map, List.getElem?_eq_getElem hi1,
      List.getElem?_eq_getElem hi2, Option.map_some] at hmi
    exact Option.some_inj.mp hmi
  exact List.inj_on_of_nodup_map (hids c1 hcmem) g1 g2 hid

theorem QueueVisited_init [Zero K] : QueueVisited (initLoop K) := by
  intro st hst h1
  simp only [initLoop, List.mem_singleton] at hst
  subst hst
  simp at h1

theorem QueueVisited_step [LinearOrder K] [Add K] (slack : K)
    (w : List Section → Section → Option (K × Stats)) (courses : List Course)
    {ls : LoopState K} (h : QueueVisited ls) :
    QueueVisited (stepLoop slack w courses ls) := by
  rcases hq : ls.queue with _ | ⟨st, rest⟩
  · rw [stepLoop_nil _ _ _ hq]
    exact h
  · by_cases hc : st.course_index = courses.length
    · rw [stepLoop_complete _ _ _ hq hc]
      intro x hx hx1
      exact h x (by rw [hq]; exact List.mem_cons_of_mem _ hx) hx1
    · rw [stepLoop_expand _ _ _ hq hc]
      intro x hx hx1
      rcases expand_fold_queue_vis slack w st.path st.course_index
        ls.best_complete_cost (courses.getD st.course_index ⟨"", []⟩).sections
        (ls.counter, rest, ls.visited) x hx with hold | hnew
      · refine expand_fold_vis_mono slack w st.path st.course_index
          ls.best_complete_cost _ _ _ ?_
        exact h x (by rw [hq]; exact List.mem_cons_of_mem _ hold) hx1
      · exact hnew

/-- The best complete cost never drops below the cost of the best
combination: every recorded completion is a combination carrying its own
total weight. -/
theorem Best_step (g : ℝ) (courses : List Course) (hne : courses ≠ [])
    {ls : LoopState ℝ} (hinv : LoopInv courses (wReal g) ls)
    (h : OPT courses g ≤ ls.best_complete_cost) :
    OPT courses g ≤ (stepLoop (60 : ℝ) (wReal g) courses ls).best_complete_cost
    := by
  rcases hq : ls.queue with _ | ⟨st, rest⟩
  · rw [stepLoop_nil _ _ _ hq]
    exact h
  · by_cases hc : st.course_index = courses.length
    · rw [stepLoop_complete _ _ _ hq hc]
      show OPT courses g ≤ min ls.best_complete_cost ((st.cost : ℝ) : WithTop ℝ)
      refine le_min h ?_
      have hst := hinv.1 st (by rw [hq]; exact List.mem_cons_self _ _)
      have hn1 : 1 ≤ courses.length := by
        rcases courses with _ | ⟨c0, cs⟩
        · exact absurd rfl hne
        · simp
      rcases hst.2 (by omega) with ⟨pre, last, hpl, hwl⟩
      have hcombo : isCombo courses st.path :=
        ⟨by rw [hst.1.1, hc], fun i hi => hst.1.2.2 i (by omega)⟩
      have hcw : comboWeight st.path g = some (st.cost, st.stats) := by
        rw [hpl, comboWeight_concat]
        exact hwl
      have hcc : comboCost st.path g = ((st.cost : ℝ) : WithTop ℝ) := by
        unfold comboCost
        rw [hcw]
      rw [← hcc]
      exact OPT_le courses g hcombo
    · rw [stepLoop_expand _ _ _ hq hc]
      exact h

theorem C2Inv_init (courses : List Course) (π : List Section) :
    C2Inv courses π (initLoop ℝ) := by
  refine Or.inr ⟨0, Nat.zero_le _, ⟨⟨0, 0, [], 0, ⟨0, 0⟩⟩, ?_, rfl, rfl⟩, ?_⟩
  · exact List.mem_singleton.mpr rfl
  · intro j hj1 hj2
    exact List.not_mem_nil _

/-- One loop iteration preserves the completeness invariant for a target
combination `π` all of whose nonempty prefixes are feasible and within the
pruning margin of the optimum. -/
theorem C2Inv_step (g : ℝ) (courses : List Course) (π : List Section)
    (hids : ∀ c ∈ courses, (c.sections.map Section.section_id).Nodup)
    (hπ : isCombo courses π)
    (hfeas : ∀ m, 1 ≤ m → m ≤ courses.length →
      ∃ cm sm, comboWeight (π.take m) g = some (cm, sm))
    (hpre : ∀ m, 1 ≤ m → m ≤ courses.length →
      comboCost (π.take m) g ≤ OPT courses g + ((60 : ℝ) : WithTop ℝ))
    {ls : LoopState ℝ}
    (hinv : LoopInv courses (wReal g) ls)
    (hqv : QueueVisited ls)
    (hbest : OPT courses g ≤ ls.best_complete_cost)
    (h : C2Inv courses π ls) :
    C2Inv courses π (stepLoop (60 : ℝ) (wReal g) courses ls) := by
  rcases hq : ls.queue with _ | ⟨st, rest⟩
  · rw [stepLoop_nil _ _ _ hq]
    exact h
  have hstok := (hinv.1 st (by rw [hq]; exact List.mem_cons_self _ _)).1
  by_cases hc : st.course_index = courses.length
  · rw [stepLoop_complete _ _ _ hq hc]
    rcases h with ⟨e, he, hes⟩ | ⟨m, hmn, ⟨stw, hstw, hwit⟩, hfresh⟩
    · exact Or.inl ⟨e, List.mem_append.mpr (Or.inl he), hes⟩
    · by_cases hwst : st.path = π.take m ∧ st.course_index = m
      · have hmn2 : m = courses.length := by rw [← hwst.2, hc]
        have hππ : π.take m = π := by
          rw [hmn2, ← hπ.1]
          exact List.take_length π
        refine Or.inl ⟨(st.cost, ls.result_counter,
          ⟨st.cost, st.stats.total_gap, st.stats.num_days_with_meetings,
            st.path⟩), ?_, ?_⟩
        · exact List.mem_append.mpr (Or.inr (List.mem_singleton.mpr rfl))
        · show st.path = π
          rw [hwst.1, hππ]
      · have hstw2 : stw ∈ rest := by
          rcases List.mem_cons.mp (by rw [hq] at hstw; exact hstw) with h2 | h2
          · exact absurd (h2 ▸ hwit) hwst
          · exact h2
        exact Or.inr ⟨m, hmn, ⟨stw, hstw2, hwit⟩, hfresh⟩
  · rw [stepLoop_expand _ _ _ hq hc]
    have hin : st.course_index < courses.length := lt_of_le_of_ne hstok.2.1 hc
    rcases h with ⟨e, he, hes⟩ | ⟨m, hmn, ⟨stw, hstw, hwit⟩, hfresh⟩
    · exact Or.inl ⟨e, he, hes⟩
    rcases expand_fold_vis_shape (60 : ℝ) (wReal g) st.path st.course_index
      ls.best_complete_cost (courses.getD st.course_index ⟨"", []⟩).sections
      (ls.counter, rest, ls.visited) with ⟨extra, hvise, hextra⟩
    by_cases hwst : st.path = π.take m ∧ st.course_index = m
    · -- expanding the frontier witness pushes the next prefix of π
      have hci : st.course_index = m := hwst.2
      have hm_lt : m < courses.length := hci ▸ hin
      have hmπ : m < π.length := by rw [hπ.1]; exact hm_lt
      have htk : π.take (m + 1) = π.take m ++ [π[m]] := by
        rw [List.take_succ, List.getElem?_eq_getElem hmπ]
        rfl
      rcases hπ.2 m hm_lt with ⟨sec, cc, e1, e2, e3⟩
      rw [List.getElem?_eq_getElem hmπ, Option.some_inj] at e1
      rw [List.getElem?_eq_getElem hm_lt, Option.some_inj] at e2
      have hsecm : π[m] ∈ courses[m].sections := by
        rw [e1, e2]
        exact e3
      rcases hfeas (m + 1) (by omega) (by omega) with ⟨cm, sm, hw1⟩
      have hwcal : wReal g st.path (π[m]) = some (cm, sm) := by
        show calculate_weight st.path (π[m]) g = some (cm, sm)
        rw [hwst.1, ← comboWeight_concat, ← htk]
        exact hw1
      have hcmcc : ((cm : ℝ) : WithTop ℝ) = comboCost (π.take (m + 1)) g := by
        unfold comboCost
        rw [hw1]
      have hnp : ¬ ls.best_complete_cost + ((60 : ℝ) : WithTop ℝ) <
          ((cm : ℝ) : WithTop ℝ) := by
        refine not_lt.mpr ?_
        rw [hcmcc]
        refine le_trans (hpre (m + 1) (by omega) (by omega)) ?_
        exact add_le_add_right hbest _
      have hsecs : (courses.getD st.course_index ⟨"", []⟩).sections =
          courses[m].sections := by
        rw [hci, getD_course courses hm_lt]
      have hinj : ∀ t ∈ (courses.getD st.course_index ⟨"", []⟩).sections,
          t.section_id = (π[m]).section_id → t = π[m] := by
        intro t ht hidt
        rw [hsecs] at ht
        exact List.inj_on_of_nodup_map
          (hids courses[m] (List.getElem_mem hm_lt)) ht hsecm hidt
      have hpush := expand_fold_push (60 : ℝ) (wReal g) st.path
        st.course_index ls.best_complete_cost
        (courses.getD st.course_index ⟨"", []⟩).sections
        (ls.counter, rest, ls.visited) (π[m]) (by rw [hsecs]; exact hsecm)
        hinj hwcal hnp
      rcases hpush with hvis | ⟨x, hx, hxp, hxi⟩
      · exfalso
        have hvv : stateId (m + 1) (π.take (m + 1)) ∈ ls.visited := by
          rw [htk, ← hwst.1]
          rw [hci] at hvis
          exact hvis
        exact hfresh (m + 1) (by omega) (by omega) hvv
      · refine Or.inr ⟨m + 1, by omega, ⟨x, hx, ?_, ?_⟩, ?_⟩
        · rw [hxp, hwst.1, ← htk]
        · rw [hxi, hci]
        · intro j hj1 hj2 hmem
          have hmem2 : stateId j (π.take j) ∈
              ((courses.getD st.course_index ⟨"", []⟩).sections.foldl
                (expandChild (60 : ℝ) (wReal g) st.path st.course_index
                  ls.best_complete_cost)
                (ls.counter, rest, ls.visited)).2.2 := hmem
          rw [hvise] at hmem2
          rcases List.mem_append.mp hmem2 with hmem3 | hmem3
          · exact hfresh j (by omega) hj2 hmem3
          · rcases hextra _ hmem3 with ⟨t, _, hidt⟩
            have hj : j = st.course_index + 1 := by
              have := congrArg Prod.fst hidt
              simpa [stateId] using this
            omega
    · -- the witness is elsewhere on the frontier
      have hstw2 : stw ∈ rest := by
        rcases List.mem_cons.mp (by rw [hq] at hstw; exact hstw) with h2 | h2
        · exact absurd (h2 ▸ hwit) hwst
        · exact h2
      refine Or.inr ⟨m, hmn, ⟨stw, ?_, hwit⟩, ?_⟩
      · exact expand_fold_queue_sub (60 : ℝ) (wReal g) st.path
          st.course_index ls.best_complete_cost _ _ stw hstw2
      · intro j hj1 hj2 hmem
        have hmem2 : stateId j (π.take j) ∈
            ((courses.getD st.course_index ⟨"", []⟩).sections.foldl
              (expandChild (60 : ℝ) (wReal g) st.path st.course_index
                ls.best_complete_cost)
              (ls.counter, rest, ls.visited)).2.2 := hmem
        rw [hvise] at hmem2
        rcases List.mem_append.mp hmem2 with hmem3 | hmem3
        · exact hfresh j hj1 hj2 hmem3
        · exfalso
          rcases hextra _ hmem3 with ⟨t, ht, hidt⟩
          have hj : j = st.course_index + 1 := by
            have := congrArg Prod.fst hidt
            simpa [stateId] using this
          have hmapeq : (π.take j).map Section.section_id =
              (st.path ++ [t]).map Section.section_id := by
            have := congrArg Prod.snd hidt
            simpa [stateId] using this
          have htmem : t ∈ courses[st.course_index].sections := by
            rw [← getD_course courses hin]
            exact ht
          have hp1 : pathOK courses (st.path ++ [t]) :=
            pathOK_concat
              (fun k hk => hstok.2.2 k (by rw [← hstok.1]; exact hk))
              (by rw [hstok.1]; exact List.getElem?_eq_getElem hin) htmem
          have hp2 : pathOK courses (π.take j) :=
            pathOK_take (isCombo_pathOK hπ) j
          have hlen : (π.take j).length = (st.path ++ [t]).length := by
            rw [List.length_take, List.length_append, List.length_singleton,
              hstok.1, hπ.1]
            omega
          have heq : π.take j = st.path ++ [t] :=
            path_eq_of_ids hids hp2 hp1 hlen hmapeq
          have hiπ : st.course_index < π.length := by
            rw [hπ.1]
            exact hin
          have htk2 : π.take (st.course_index + 1) =
              π.take st.course_index ++ [π[st.course_index]] := by
            rw [List.take_succ, List.getElem?_eq_getElem hiπ]
            rfl
          have heq2 : π.take st.course_index ++ [π[st.course_index]] =
              st.path ++ [t] := by
            rw [← htk2, ← hj]
            exact heq
          have hlen2 : (π.take st.course_index).length = st.path.length := by
            rw [List.length_take, hstok.1, hπ.1]
            omega
          rcases List.append_inj heq2 hlen2 with ⟨hpa, _⟩
          by_cases him : st.course_index = m
          · refine hwst ⟨?_, him⟩
            rw [← him]
            exact hpa.symm
          · have hqvst : stateId st.course_index st.path ∈ ls.visited :=
              hqv st (by rw [hq]; exact List.mem_cons_self _ _) (by omega)
            have hvv : stateId st.course_index
                (π.take st.course_index) ∈ ls.visited := by
              rw [hpa]
              exact hqvst
            exact hfresh st.course_index (by omega) (le_of_lt hin) hvv

/-- All four invariants hold after any number of loop iterations from the
initial state. -/
theorem C2_iterate (g : ℝ) (courses : List Course) (π : List Section)
    (hne : courses ≠ [])
    (hids : ∀ c ∈ courses, (c.sections.map Section.section_id).Nodup)
    (hπ : isCombo courses π)
    (hfeas : ∀ m, 1 ≤ m → m ≤ courses.length →
      ∃ cm sm, comboWeight (π.take m) g = some (cm, sm))
    (hpre : ∀ m, 1 ≤ m → m ≤ courses.length →
      comboCost (π.take m) g ≤ OPT courses g + ((60 : ℝ) : WithTop ℝ))
    (fuel : ℕ) :
    LoopInv courses (wReal g)
        (iterateLoop (60 : ℝ) (wReal g) courses fuel (initLoop ℝ)) ∧
      QueueVisited
        (iterateLoop (60 : ℝ) (wReal g) courses fuel (initLoop ℝ)) ∧
      OPT courses g ≤
        (iterateLoop (60 : ℝ) (wReal g) courses fuel
          (initLoop ℝ)).best_complete_cost ∧
      C2Inv courses π
        (iterateLoop (60 : ℝ) (wReal g) courses fuel (initLoop ℝ)) := by
  induction fuel with
  | zero =>
    exact ⟨LoopInv_init (wReal g) courses, QueueVisited_init, le_top,
      C2Inv_init courses π⟩
  | succ n ih =>
    rw [iterateLoop_succ_outer]
    exact ⟨LoopInv_step _ _ _ ih.1,
      QueueVisited_step _ _ _ ih.2.1,
      Best_step g courses hne ih.1 ih.2.2.1,
      C2Inv_step g courses π hids hπ hfeas hpre ih.1 ih.2.1 ih.2.2.1
        ih.2.2.2⟩

/-- A combination whose prefixes all stay within the pruning margin is
recorded by the completed search. -/
theorem C2_recorded (g : ℝ) (courses : List Course) (π : List Section)
    (hne : courses ≠ [])
    (hids : ∀ c ∈ courses, (c.sections.map Section.section_id).Nodup)
    (hπ : isCombo courses π)
    (hfeas : ∀ m, 1 ≤ m → m ≤ courses.length →
      ∃ cm sm, comboWeight (π.take m) g = some (cm, sm))
    (hpre : ∀ m, 1 ≤ m → m ≤ courses.length →
      comboCost (π.take m) g ≤ OPT courses g + ((60 : ℝ) : WithTop ℝ)) :
    ∃ e ∈ recordedResults (60 : ℝ) (wReal g) courses, e.2.2.sections = π := by
  have hall := C2_iterate g courses π hne hids hπ hfeas hpre
    (searchFuel courses)
  have hqe := search_terminates (60 : ℝ) (wReal g) courses
  rcases hall.2.2.2 with hA | ⟨m, _, ⟨stw, hstw, _⟩, _⟩
  · unfold recordedResults
    rw [if_neg (fun h0 => hne (List.length_eq_zero.mp h0))]
    exact hA
  · rw [hqe] at hstw
    cases hstw

/-- C2, amended: the branch-and-bound pruning never misses a strictly better
complete schedule PROVIDED every nonempty prefix of the candidate
combination stays within the slack margin (60) of the global optimum — the
property the unqualified claim implicitly assumes.  Under that hypothesis,
any feasible complete combination strictly cheaper than some returned
schedule is itself returned; `C2_counterexample` shows the hypothesis is not
automatic, because interim gap penalties can spike above `best + 60` before a
later section fills the gap. -/
theorem C2_amended_pruning (courses : List Course) (π : List Section)
    (top : ℕ) (g : ℝ)
    (hids : ∀ c ∈ courses, (c.sections.map Section.section_id).Nodup)
    (hπ : isCombo courses π)
    (hpre : ∀ m, 1 ≤ m → m ≤ courses.length →
      comboCost (π.take m) g ≤ OPT courses g + ((60 : ℝ) : WithTop ℝ))
    (r : Schedule ℝ) (hr : r ∈ optimize_schedule courses top g)
    (hlt : comboCost π g < ((r.cost : ℝ) : WithTop ℝ)) :
    ∃ r2 ∈ optimize_schedule courses top g, r2.sections = π := by
  have hne : courses ≠ [] := by
    intro h0
    subst h0
    rw [optimize_schedule_eq] at hr
    simp [optimize_core] at hr
  have hOne : OPT courses g ≠ ⊤ :=
    ne_top_of_lt (lt_of_le_of_lt (OPT_le courses g hπ) hlt)
  rcases WithTop.ne_top_iff_exists.mp hOne with ⟨x, hx⟩
  have hfeas : ∀ m, 1 ≤ m → m ≤ courses.length →
      ∃ cm sm, comboWeight (π.take m) g = some (cm, sm) := by
    intro m h1 h2
    rcases hw : comboWeight (π.take m) g with _ | ⟨cm, sm⟩
    · exfalso
      have hcc : comboCost (π.take m) g = ⊤ := by
        unfold comboCost
        rw [hw]
      have h3 := hpre m h1 h2
      rw [hcc, ← hx, ← WithTop.coe_add] at h3
      exact (WithTop.not_top_le_coe _) h3
    · exact ⟨cm, sm, rfl⟩
  rcases C2_recorded g courses π hne hids hπ hfeas hpre with ⟨e, he, hesec⟩
  have heok := recordedResults_EntryOK (60 : ℝ) (wReal g) courses e he
  have hn1 : 1 ≤ courses.length := by
    rcases courses with _ | ⟨c0, cs⟩
    · exact absurd rfl hne
    · simp
  rcases heok.2.2.2 hn1 with ⟨pre, last, hpl, hwl⟩
  have hwl2 : calculate_weight pre last g =
      some (e.1, ⟨e.2.2.total_gap_minutes, e.2.2.num_days_with_meetings⟩) :=
    hwl
  have hce : comboCost π g = ((e.1 : ℝ) : WithTop ℝ) := by
    rw [← hesec]
    unfold comboCost
    rw [hpl, comboWeight_concat, hwl2]
  rw [optimize_schedule_eq, optimize_core_eq] at hr ⊢
  rcases List.mem_map.mp hr with ⟨er, her, herr⟩
  have hsorted := List.sorted_insertionSort resultLE
    (recordedResults (60 : ℝ) (wReal g) courses)
  have her2 : er ∈ recordedResults (60 : ℝ) (wReal g) courses :=
    (List.perm_insertionSort resultLE _).subset
      ((List.take_sublist _ _).subset her)
  have herok := recordedResults_EntryOK (60 : ℝ) (wReal g) courses er her2
  have hesort : e ∈ List.insertionSort resultLE
      (recordedResults (60 : ℝ) (wReal g) courses) :=
    ((List.perm_insertionSort resultLE _).symm).subset he
  by_cases htop : e ∈ (List.insertionSort resultLE
      (recordedResults (60 : ℝ) (wReal g) courses)).take top
  · exact ⟨e.2.2, List.mem_map_of_mem _ htop, hesec⟩
  · exfalso
    have hsplit : e ∈ (List.insertionSort resultLE
        (recordedResults (60 : ℝ) (wReal g) courses)).take top ++
        (List.insertionSort resultLE
          (recordedResults (60 : ℝ) (wReal g) courses)).drop top := by
      rw [List.take_append_drop]
      exact hesort
    have hdrop : e ∈ (List.insertionSort resultLE
        (recordedResults (60 : ℝ) (wReal g) courses)).drop top := by
      rcases List.mem_append.mp hsplit with h2 | h2
      · exact absurd h2 htop
      · exact h2
    have hpw : List.Pairwise resultLE
        ((List.insertionSort resultLE
          (recordedResults (60 : ℝ) (wReal g) courses)).take top ++
         (List.insertionSort resultLE
          (recordedResults (60 : ℝ) (wReal g) courses)).drop top) := by
      rw [List.take_append_drop]
      exact hsorted
    have hrel : resultLE er e :=
      (List.pairwise_append.mp hpw).2.2 er her e hdrop
    have hle : er.1 ≤ e.1 := by
      rcases hrel with h2 | ⟨h2, _⟩
      · exact le_of_lt h2
      · exact le_of_eq h2
    have hrc : r.cost = er.1 := by
      rw [← herr]
      exact herok.1
    have hgt : e.1 < er.1 := by
      rw [← hrc]
      rw [hce] at hlt
      exact WithTop.coe_lt_coe.mp hlt
    exact absurd hle (not_le.mpr hgt)

theorem comboCost_mock_13 :
    comboCost [mock_section_1, mock_section_3] (0.75 : ℝ) =
      ((costPair 10 : ℝ) : WithTop ℝ) := by
  have h : comboWeight [mock_section_1, mock_section_3] (0.75 : ℝ) =
      some (costPair 10, ⟨10, 1⟩) := by
    rw [show [mock_section_1, mock_section_3] =
      [mock_section_1] ++ [mock_section_3] from rfl, comboWeight_concat]
    exact cw_s1_s3
  unfold comboCost
  rw [h]

theorem comboCost_mock_14 :
    comboCost [mock_section_1, mock_section_4] (0.75 : ℝ) =
      ((costPair 310 : ℝ) : WithTop ℝ) := by
  have h : comboWeight [mock_section_1, mock_section_4] (0.75 : ℝ) =
      some (costPair 310, ⟨310, 1⟩) := by
    rw [show [mock_section_1, mock_section_4] =
      [mock_section_1] ++ [mock_section_4] from rfl, comboWeight_concat]
    exact cw_s1_s4
  unfold comboCost
  rw [h]

theorem comboCost_mock_23 :
    comboCost [mock_section_2, mock_section_3] (0.75 : ℝ) =
      ((costPair 130 : ℝ) : WithTop ℝ) := by
  have h : comboWeight [mock_section_2, mock_section_3] (0.75 : ℝ) =
      some (costPair 130, ⟨130, 1⟩) := by
    rw [show [mock_section_2, mock_section_3] =
      [mock_section_2] ++ [mock_section_3] from rfl, comboWeight_concat]
    exact cw_s2_s3
  unfold comboCost
  rw [h]

theorem comboCost_mock_24 :
    comboCost [mock_section_2, mock_section_4] (0.75 : ℝ) =
      ((costPair 70 : ℝ) : WithTop ℝ) := by
  have h : comboWeight [mock_section_2, mock_section_4] (0.75 : ℝ) =
      some (costPair 70, ⟨70, 1⟩) := by
    rw [show [mock_section_2, mock_section_4] =
      [mock_section_2] ++ [mock_section_4] from rfl, comboWeight_concat]
    exact cw_s2_s4
  unfold comboCost
  rw [h]

theorem comboCost_mock_1 : comboCost [mock_section_1] (0.75 : ℝ) =
    ((15 : ℝ) : WithTop ℝ) := by
  have h : comboWeight [mock_section_1] (0.75 : ℝ) = some (15, ⟨0, 1⟩) := by
    rw [show [mock_section_1] = ([] : List Section) ++ [mock_section_1]
      from rfl, comboWeight_concat]
    exact cw_nil_s1
  unfold comboCost
  rw [h]

theorem allCombos_mock : allCombos mockCourses =
    [[mock_section_1, mock_section_3], [mock_section_1, mock_section_4],
     [mock_section_2, mock_section_3], [mock_section_2, mock_section_4]] :=
  rfl

theorem OPT_mock : OPT mockCourses (0.75 : ℝ) =
    ((costPair 10 : ℝ) : WithTop ℝ) := by
  unfold OPT
  rw [allCombos_mock]
  simp only [List.map_cons, List.map_nil, List.foldr_cons, List.foldr_nil]
  rw [comboCost_mock_13, comboCost_mock_14, comboCost_mock_23,
    comboCost_mock_24]
  have ha : min ((costPair 70 : ℝ) : WithTop ℝ) ⊤ =
      ((costPair 70 : ℝ) : WithTop ℝ) := min_eq_left le_top
  have hb : min ((costPair 130 : ℝ) : WithTop ℝ)
      ((costPair 70 : ℝ) : WithTop ℝ) = ((costPair 70 : ℝ) : WithTop ℝ) :=
    min_eq_right (WithTop.coe_le_coe.mpr
      (costPair_lt_far (by norm_num) (by norm_num)).le)
  have hc : min ((costPair 310 : ℝ) : WithTop ℝ)
      ((costPair 70 : ℝ) : WithTop ℝ) = ((costPair 70 : ℝ) : WithTop ℝ) :=
    min_eq_right (WithTop.coe_le_coe.mpr
      (costPair_lt_far (by norm_num) (by norm_num)).le)
  have hd : min ((costPair 10 : ℝ) : WithTop ℝ)
      ((costPair 70 : ℝ) : WithTop ℝ) = ((costPair 10 : ℝ) : WithTop ℝ) :=
    min_eq_left (WithTop.coe_le_coe.mpr
      (costPair_lt_far (by norm_num) (by norm_num)).le)
  rw [ha, hb, hc, hd]

/-- Witness for the amended C2 at the two-course mock input: the combination
`[MOCK_SECTION_1, MOCK_SECTION_3]` (total cost `costPair 10`) is cheaper than
the returned schedule `R1416` (cost `costPair 70`), its prefixes stay within
the margin, and it is indeed returned. -/
theorem C2_amended_pruning_witness :
    ∃ r2 ∈ optimize_schedule mockCourses 2 (0.75 : ℝ),
      r2.sections = [mock_section_1, mock_section_3] := by
  have hids : ∀ c ∈ mockCourses,
      (c.sections.map Section.section_id).Nodup := by
    intro c hc
    simp only [mockCourses, List.mem_cons, List.not_mem_nil, or_false] at hc
    rcases hc with rfl | rfl
    · decide
    · decide
  have hπ : isCombo mockCourses [mock_section_1, mock_section_3] := by
    refine ⟨rfl, ?_⟩
    intro i hi
    have hi2 : i < 2 := hi
    interval_cases i
    · exact ⟨mock_section_1, mock_course_1, rfl, rfl, by simp [mock_course_1]⟩
    · exact ⟨mock_section_3, mock_course_2, rfl, rfl, by simp [mock_course_2]⟩
  have hpre : ∀ m, 1 ≤ m → m ≤ mockCourses.length →
      comboCost (([mock_section_1, mock_section_3]).take m) (0.75 : ℝ) ≤
        OPT mockCourses (0.75 : ℝ) + ((60 : ℝ) : WithTop ℝ) := by
    intro m h1 h2
    have h2b : m ≤ 2 := h2
    rw [OPT_mock, ← WithTop.coe_add]
    interval_cases m
    · rw [show ([mock_section_1, mock_section_3]).take 1 = [mock_section_1]
        from rfl, comboCost_mock_1]
      refine WithTop.coe_le_coe.mpr ?_
      have hcp := costPair_gt_base (show (0 : ℝ) < 10 by norm_num)
      linarith
    · rw [show ([mock_section_1, mock_section_3]).take 2 =
        [mock_section_1, mock_section_3] from rfl, comboCost_mock_13]
      refine WithTop.coe_le_coe.mpr ?_
      linarith
  have hr : R1416 ∈ optimize_schedule mockCourses 2 (0.75 : ℝ) := by
    rw [mock_search 2,
      show ([R1011, R1416, R1411, R1016].take 2) = [R1011, R1416] from rfl]
    simp
  have hlt : comboCost [mock_section_1, mock_section_3] (0.75 : ℝ) <
      ((R1416.cost : ℝ) : WithTop ℝ) := by
    rw [comboCost_mock_13, show R1416.cost = costPair 70 from rfl]
    exact WithTop.coe_lt_coe.mpr (costPair_lt_far (by norm_num) (by norm_num))
  exact C2_amended_pruning mockCourses [mock_section_1, mock_section_3] 2
    (0.75 : ℝ) hids hπ hpre R1416 hr hlt

theorem rpow_625 : (625 : ℝ) ^ (0.75 : ℝ) = 125 := by
  have h5 : (625 : ℝ) = (5 : ℝ) ^ (4 : ℕ) := by norm_num
  rw [h5, ← Real.rpow_natCast (5 : ℝ) 4, ← Real.rpow_mul (by norm_num)]
  rw [show ((4 : ℕ) : ℝ) * (0.75 : ℝ) = ((3 : ℕ) : ℝ) by norm_num]
  rw [Real.rpow_natCast]
  norm_num

theorem gapContribution_625_ge : (125 : ℝ) ≤ gapContribution 625 := by
  have h1 : (625 : ℝ) ≤ adjusted_gap 625 30 50 15 := (adjusted_gap_lower 625).le
  have h2 : (625 : ℝ) ^ (0.75 : ℝ) ≤ adjusted_gap 625 30 50 15 ^ (0.75 : ℝ) :=
    Real.rpow_le_rpow (by norm_num) h1 (by norm_num)
  rw [rpow_625] at h2
  exact h2

theorem bba1_id : bb_a1.section_id = "BB-A1" := rfl

theorem bba2_id : bb_a2.section_id = "BB-A2" := rfl

theorem bbb_id : bb_b.section_id = "BB-B" := rfl

theorem bbc_id : bb_c.section_id = "BB-C" := rfl

theorem cw_bb_a1 : calculate_weight [] bb_a1 (0.75 : ℝ) =
    some (30, ⟨0, 2⟩) := by
  simp [calculate_weight, day_meetings, allMeetings, bb_a1, addPair, goDays,
    dayScan, List.insertionSort, List.orderedInsert, pairLE, DAY_WEIGHT]
  norm_num

theorem cw_bb_a2 : calculate_weight [] bb_a2 (0.75 : ℝ) =
    some (costPair 625, ⟨625, 1⟩) := by
  simp [calculate_weight, day_meetings, allMeetings, bb_a2, addPair, goDays,
    dayScan, List.insertionSort, List.orderedInsert, pairLE, DAY_WEIGHT,
    costPair, gapContribution]

theorem cw_a1_b : calculate_weight [bb_a1] bb_b (0.75 : ℝ) =
    some (45, ⟨0, 3⟩) := by
  simp [calculate_weight, day_meetings, allMeetings, bb_a1, bb_b, addPair,
    goDays, dayScan, List.insertionSort, List.orderedInsert, pairLE,
    DAY_WEIGHT]
  norm_num

theorem cw_a1b_c : calculate_weight [bb_a1, bb_b] bb_c (0.75 : ℝ) =
    some (45, ⟨0, 3⟩) := by
  simp [calculate_weight, day_meetings, allMeetings, bb_a1, bb_b, bb_c,
    addPair, goDays, dayScan, List.insertionSort, List.orderedInsert, pairLE,
    DAY_WEIGHT]
  norm_num

theorem cw_a2_b : calculate_weight [bb_a2] bb_b (0.75 : ℝ) =
    some (gapContribution 625 + 30, ⟨625, 2⟩) := by
  simp [calculate_weight, day_meetings, allMeetings, bb_a2, bb_b, addPair,
    goDays, dayScan, List.insertionSort, List.orderedInsert, pairLE,
    DAY_WEIGHT, gapContribution]
  norm_num

theorem cw_a2b_c : calculate_weight [bb_a2, bb_b] bb_c (0.75 : ℝ) =
    some (30, ⟨0, 2⟩) := by
  simp [calculate_weight, day_meetings, allMeetings, bb_a2, bb_b, bb_c,
    addPair, goDays, dayScan, List.insertionSort, List.orderedInsert, pairLE,
    DAY_WEIGHT]
  norm_num

theorem bb_step1 : stepLoop (60 : ℝ) (wReal (0.75 : ℝ)) bbCourses
    (initLoop ℝ) = bbLS1 := by
  have h30 : (30 : ℝ) < costPair 625 := by
    unfold costPair
    linarith [gapContribution_625_ge]
  simp [stepLoop, initLoop, bbCourses, expandChild, wReal, cw_bb_a1,
    cw_bb_a2, stateId, pushState, stateLT, bbLS1, bbT1, bbT2, bbIds1,
    WithTop.top_add, bba1_id, bba2_id, h30.not_lt, h30.ne']

theorem bb_step2 : stepLoop (60 : ℝ) (wReal (0.75 : ℝ)) bbCourses
    bbLS1 = bbLS2 := by
  have h45 : (45 : ℝ) < costPair 625 := by
    unfold costPair
    linarith [gapContribution_625_ge]
  simp [stepLoop, bbLS1, bbLS2, bbCourses, expandChild, wReal, cw_a1_b,
    stateId, pushState, stateLT, bbT1, bbT2, bbT3, bbIds1, bbIds2,
    WithTop.top_add, bba1_id, bba2_id, bbb_id, h45]

theorem bb_step3 : stepLoop (60 : ℝ) (wReal (0.75 : ℝ)) bbCourses
    bbLS2 = bbLS3 := by
  have h45 : (45 : ℝ) < costPair 625 := by
    unfold costPair
    linarith [gapContribution_625_ge]
  simp [stepLoop, bbLS2, bbLS3, bbCourses, expandChild, wReal, cw_a1b_c,
    stateId, pushState, stateLT, bbT2, bbT3, bbT4, bbIds1, bbIds2, bbIds3,
    WithTop.top_add, bba1_id, bba2_id, bbb_id, bbc_id, h45]

theorem bb_step4 : stepLoop (60 : ℝ) (wReal (0.75 : ℝ)) bbCourses
    bbLS3 = bbLS4 := by
  have hmin : min (⊤ : WithTop ℝ) (((45 : ℝ) : ℝ) : WithTop ℝ) =
      (((45 : ℝ) : ℝ) : WithTop ℝ) := min_eq_right le_top
  simp [stepLoop, bbLS3, bbLS4, bbCourses, bbT4, bbR, hmin]

theorem bb_step5 : stepLoop (60 : ℝ) (wReal (0.75 : ℝ)) bbCourses
    bbLS4 = bbLS5 := by
  have hp2 : (45 : WithTop ℝ) + 60 <
      ((gapContribution 625 : ℝ) : WithTop ℝ) + 30 := by
    rw [show ((45 : WithTop ℝ)) = (((45 : ℝ)) : WithTop ℝ) by norm_cast,
      show ((60 : WithTop ℝ)) = (((60 : ℝ)) : WithTop ℝ) by norm_cast,
      show ((30 : WithTop ℝ)) = (((30 : ℝ)) : WithTop ℝ) by norm_cast,
      ← WithTop.coe_add, ← WithTop.coe_add]
    exact WithTop.coe_lt_coe.mpr (by linarith [gapContribution_625_ge])
  simp [stepLoop, bbLS4, bbLS5, bbCourses, expandChild, wReal, cw_a2_b,
    bbT2, hp2]

theorem bb_fuel : searchFuel bbCourses = 12 := rfl

theorem bb_final : iterateLoop (60 : ℝ) (wReal (0.75 : ℝ)) bbCourses
    (searchFuel bbCourses) (initLoop ℝ) = bbLS5 := by
  rw [bb_fuel]
  rw [show (12 : ℕ) = 11 + 1 from rfl, iterateLoop_succ_inner, bb_step1]
  rw [show (11 : ℕ) = 10 + 1 from rfl, iterateLoop_succ_inner, bb_step2]
  rw [show (10 : ℕ) = 9 + 1 from rfl, iterateLoop_succ_inner, bb_step3]
  rw [show (9 : ℕ) = 8 + 1 from rfl, iterateLoop_succ_inner, bb_step4]
  rw [show (8 : ℕ) = 7 + 1 from rfl, iterateLoop_succ_inner, bb_step5]
  exact queue_empty_fixpoint (60 : ℝ) (wReal (0.75 : ℝ)) bbCourses rfl 7

theorem bb_recorded : recordedResults (60 : ℝ) (wReal (0.75 : ℝ)) bbCourses =
    [((45 : ℝ), 0, bbR)] := by
  unfold recordedResults
  rw [if_neg (by simp [bbCourses]), bb_final]
  rfl

theorem bb_search : optimize_schedule bbCourses 2 (0.75 : ℝ) = [bbR] := by
  rw [optimize_schedule_eq, optimize_core_eq, bb_recorded]
  rw [List.insertionSort, List.insertionSort, List.orderedInsert_nil]
  rfl

/-- C2: refuted.  The branch-and-bound pruning CAN miss a strictly better
complete schedule.  On the three-course input `bbCourses` with `top = 2`,
`optimize_schedule` returns only the cost-45 schedule `bbR`, yet the feasible
complete combination `[bb_a2, bb_b, bb_c]` has total cost 30 < 45 and is not
returned: its prefix `[bb_a2]` carries an interim 625-minute-gap penalty
exceeding `best_complete_cost_so_far + 60`, so the branch is discarded even
though the later section `bb_c` fills that gap exactly and the penalty
vanishes from the full combination's cost. -/
theorem C2_counterexample :
    optimize_schedule bbCourses 2 (0.75 : ℝ) = [bbR] ∧
    isCombo bbCourses [bb_a2, bb_b, bb_c] ∧
    comboCost [bb_a2, bb_b, bb_c] (0.75 : ℝ) = ((30 : ℝ) : WithTop ℝ) ∧
    bbR.cost = 45 ∧ ((30 : ℝ) : WithTop ℝ) < ((45 : ℝ) : WithTop ℝ) ∧
    ∀ r ∈ optimize_schedule bbCourses 2 (0.75 : ℝ),
      r.sections ≠ [bb_a2, bb_b, bb_c] := by
  refine ⟨bb_search, ⟨rfl, ?_⟩, ?_, rfl, ?_, ?_⟩
  · intro i hi
    have hi2 : i < 3 := hi
    interval_cases i
    · exact ⟨bb_a2, ⟨"BBA", [bb_a1, bb_a2]⟩, rfl, rfl, by simp⟩
    · exact ⟨bb_b, ⟨"BBB", [bb_b]⟩, rfl, rfl, by simp⟩
    · exact ⟨bb_c, ⟨"BBC", [bb_c]⟩, rfl, rfl, by simp⟩
  · have hw : comboWeight [bb_a2, bb_b, bb_c] (0.75 : ℝ) =
        some (30, ⟨0, 2⟩) := by
      rw [show [bb_a2, bb_b, bb_c] = [bb_a2, bb_b] ++ [bb_c] from rfl,
        comboWeight_concat]
      exact cw_a2b_c
    unfold comboCost
    rw [hw]
  · exact WithTop.coe_lt_coe.mpr (by norm_num)
  · intro r hr
    rw [bb_search] at hr
    rcases List.mem_singleton.mp hr with rfl
    rw [show bbR.sections = [bb_a1, bb_b, bb_c] from rfl]
    decide

end Plastron
